import Mathlib

/-!
Verification of the task-dependency-graph subsystem of the trade-manager
repository: a shallow embedding of the DAG manager (`dag.js`), the
snapshot-schema status check (`status.schema.json`), the cross-repository
reference handler (`cross-repo.js`) and theorems about the properties
claimed for them.

Conventions of the embedding:
* graphlib node keys are canonical numeric strings in the source (task ids
  are integers); they are modelled as `Nat`.  graphlib stores nodes in a
  plain JS object, so `nodes()` returns integer-like keys in ascending
  numeric order; the model keeps the node list sorted by key.
* a graphlib node payload is `Option Task`: `setEdge` auto-creates nodes
  whose payload is JS `undefined`, modelled as `none`.
* JS exceptions (`TypeError` on a property access of `undefined`, explicit
  `throw`) are modelled with `Except Unit`.
* JS numbers produced by the status aggregation are modelled as
  unnormalised integer fractions `JsNum` (numerator/denominator); the
  denominator `0` represents the non-finite result of `0/0` (`NaN`).
  `JsNum.toVal` maps a finite fraction to the rational it denotes and a
  non-finite one to `none`.
-/

namespace TradeManager

/-- JS number produced by the aggregation code: an unnormalised fraction.
A zero denominator encodes the non-finite result of a division by zero
(`NaN` for the `0/0` case that occurs in the source). -/
structure JsNum where
  num : Int
  den : Int
deriving DecidableEq, Repr

namespace JsNum

/-- Embed a natural number count. -/
def ofNat (n : Nat) : JsNum := ⟨(n : Int), 1⟩

/-- JS addition on fractions. -/
def add (a b : JsNum) : JsNum := ⟨a.num * b.den + b.num * a.den, a.den * b.den⟩

/-- JS subtraction on fractions. -/
def sub (a b : JsNum) : JsNum := ⟨a.num * b.den - b.num * a.den, a.den * b.den⟩

/-- JS multiplication on fractions. -/
def mul (a b : JsNum) : JsNum := ⟨a.num * b.num, a.den * b.den⟩

/-- JS division on fractions; dividing by a fraction whose numerator is `0`
yields a zero denominator, the model of the non-finite `0/0` result. -/
def div (a b : JsNum) : JsNum := ⟨a.num * b.den, a.den * b.num⟩

/-- The rational value a finite fraction denotes; `none` for the
non-finite encoding (zero denominator). -/
def toVal (a : JsNum) : Option Rat :=
  if a.den = 0 then none else some ((a.num : Rat) / (a.den : Rat))

end JsNum

/-- A task record, per the snapshot data model: required `id`, `title`,
`status`, plus the optional fields the graph engine reads. -/
structure Task where
  id : Nat
  title : String
  status : String
  dependencies : List Nat
  repository : Option String := none
  milestone : Option String := none
  complexity : Option Nat := none
deriving DecidableEq, Repr

/-- The ids of a task list. -/
def idsOf (ts : List Task) : List Nat := ts.map Task.id

/-- A directed graphlib graph: nodes are (key, payload) pairs kept in
ascending key order (the JS object key order for integer-like keys),
edges a duplicate-free list of (source, target) pairs. -/
structure Graph where
  nodes : List (Nat × Option Task)
  edges : List (Nat × Nat)
deriving DecidableEq, Repr

namespace Graph

/-- Node keys in `nodes()` order. -/
def keys (g : Graph) : List Nat := g.nodes.map Prod.fst

/-- graphlib `hasNode`. -/
def hasNode (g : Graph) (k : Nat) : Bool := g.keys.contains k

/-- graphlib `node(k)`: the payload, `none` both for a missing node and for
a node auto-created by `setEdge` (payload `undefined`). -/
def node (g : Graph) (k : Nat) : Option Task :=
  match g.nodes.find? (fun p => p.fst = k) with
  | some p => p.snd
  | none => none

/-- graphlib `successors(k)` (ascending key order). -/
def successors (g : Graph) (k : Nat) : List Nat :=
  g.keys.filter (fun w => g.edges.contains (k, w))

/-- graphlib `predecessors(k)` (ascending key order). -/
def predecessors (g : Graph) (k : Nat) : List Nat :=
  g.keys.filter (fun u => g.edges.contains (u, k))

end Graph

/-- Insert a (key, payload) pair into a key-sorted node list, replacing the
payload when the key is already present. -/
def insertNode (l : List (Nat × Option Task)) (k : Nat) (v : Option Task) :
    List (Nat × Option Task) :=
  match l with
  | [] => [(k, v)]
  | (k', v') :: rest =>
    if k < k' then (k, v) :: (k', v') :: rest
    else if k = k' then (k, v) :: rest
    else (k', v') :: insertNode rest k v

/-- graphlib `setNode(k, task)`. -/
def setNode (g : Graph) (k : Nat) (t : Task) : Graph :=
  { g with nodes := insertNode g.nodes k (some t) }

/-- graphlib node auto-creation performed by `setEdge`: a missing endpoint
is added with payload `undefined`. -/
def ensureNode (g : Graph) (k : Nat) : Graph :=
  if g.hasNode k then g else { g with nodes := insertNode g.nodes k none }

/-- graphlib `setEdge(v, w)`: auto-creates the endpoints, records the edge
once. -/
def setEdge (g : Graph) (v w : Nat) : Graph :=
  if (ensureNode (ensureNode g v) w).edges.contains (v, w) then
    ensureNode (ensureNode g v) w
  else
    { ensureNode (ensureNode g v) w with
        edges := (ensureNode (ensureNode g v) w).edges ++ [(v, w)] }

/-- The empty graph `new Graph({directed: true})`. -/
def emptyGraph : Graph := ⟨[], []⟩

/-- `DAGManager.buildGraph()`: every task becomes a node keyed by its id,
then for every task and every listed dependency `d` the edge `d → task.id`
is added (auto-creating a payload-less node when `d` is not a task id). -/
def buildGraph (ts : List Task) : Graph :=
  let g0 := ts.foldl (fun g t => setNode g t.id t) emptyGraph
  ts.foldl (fun g t => t.dependencies.foldl (fun g' d => setEdge g' d t.id) g) g0

/-! ### Availability (`DAGManager.getAvailableTasks`) -/
/-- One step of the JS `predecessors.every(depId => ...)` callback, as a
total predicate: the predecessor payload exists and is completed. -/
def predCompleted (g : Graph) (p : Nat) : Bool :=
  match g.node p with
  | some u => u.status == "completed"
  | none => false

/-- The JS `predecessors.every(depId => this.graph.node(depId).status ===
'completed')`: short-circuiting, and a `TypeError` (modelled `.error ()`)
when an examined predecessor has an `undefined` payload. -/
def allDepsCompleted (g : Graph) : List Nat → Except Unit Bool
  | [] => .ok true
  | p :: rest =>
    match g.node p with
    | none => .error ()
    | some u => if u.status == "completed" then allDepsCompleted g rest else .ok false

/-- The loop body of `getAvailableTasks`: `task.status` is only read when
all examined dependencies were completed (JS `&&` short-circuit), and
reading it on an `undefined` payload is a `TypeError`. -/
def availGo (g : Graph) : List Nat → List Task → Except Unit (List Task)
  | [], acc => .ok acc
  | k :: rest, acc =>
    match allDepsCompleted g (g.predecessors k) with
    | .error e => .error e
    | .ok false => availGo g rest acc
    | .ok true =>
      match g.node k with
      | none => .error ()
      | some t => availGo g rest (if t.status == "completed" then acc else acc ++ [t])

/-- `DAGManager.getAvailableTasks()`. -/
def getAvailableTasks (g : Graph) : Except Unit (List Task) :=
  availGo g g.keys []

/-- All direct predecessors carry a completed payload (total form of the
`every` callback). -/
def allPredsCompleted (g : Graph) (k : Nat) : Bool :=
  (g.predecessors k).all (predCompleted g)

/-- The task selected at one node by `getAvailableTasks` when no exception
occurs. -/
def availSelect (g : Graph) (k : Nat) : Option Task :=
  match g.node k with
  | some t =>
    if allPredsCompleted g k && !(t.status == "completed") then some t else none
  | none => none

/-- Every dependency id listed by any task has a corresponding task
(no dangling references). -/
def DepsClosed (ts : List Task) : Prop :=
  ∀ t ∈ ts, ∀ d ∈ t.dependencies, d ∈ idsOf ts

instance (ts : List Task) : Decidable (DepsClosed ts) := by
  unfold DepsClosed
  infer_instance

/-! ### Cycle detection (`DAGManager.findCycles` / `hasCycles`) -/
/-- The mutable state of the `findCycles` DFS: the `visited` set, the
`recursionStack` set, and the `cycles` accumulator.  (Note that the source
returns early when a cycle is found, skipping `recursionStack.delete`, so
stale stack entries survive across outer DFS roots.) -/
structure DfsSt where
  visited : List Nat
  stack : List Nat
  cycles : List (List Nat)
deriving DecidableEq, Repr

/-- JS `Set.add`: append when not yet a member. -/
def addSet (l : List Nat) (x : Nat) : List Nat :=
  if x ∈ l then l else l ++ [x]

/-- JS `Set.delete`. -/
def removeSet (l : List Nat) (x : Nat) : List Nat :=
  l.filter (fun y => y ≠ x)

/-- JS `path.slice(path.indexOf(s))`: the suffix from the first occurrence
of `s`; when `s` is absent, `indexOf` is `-1` and `slice(-1)` yields the
last element. -/
def sliceFrom (path : List Nat) (s : Nat) : List Nat :=
  if s ∈ path then path.dropWhile (fun y => y ≠ s)
  else path.drop (path.length - 1)

/-- One iteration of the `for (const successor of successors)` loop of the
DFS (with `rec` the recursive call at the remaining fuel): a found cycle
short-circuits, a visited successor on the recursion stack records a cycle,
a visited successor off the stack is skipped, an unvisited one is explored
recursively. -/
def dfsStep (rec : Nat → DfsSt → DfsSt × Bool) (path : List Nat)
    (acc : DfsSt × Bool) (s : Nat) : DfsSt × Bool :=
  if acc.snd then acc
  else if s ∈ acc.fst.visited then
    if s ∈ acc.fst.stack then
      ({ acc.fst with cycles := acc.fst.cycles ++ [sliceFrom path s] }, true)
    else (acc.fst, false)
  else rec s acc.fst

/-- The recursive `dfs(nodeId, path)` of `findCycles`, fuelled.  The body:
mark visited, push on the recursion stack and the path, walk the
successors, and — only when no cycle was found — pop the recursion stack
(the early `return true` of the source skips the pop). -/
def dfsNode (g : Graph) : Nat → Nat → List Nat → DfsSt → DfsSt × Bool
  | 0, _, _, st => (st, false)
  | fuel + 1, nodeId, path0, st0 =>
    let path := path0 ++ [nodeId]
    let st1 : DfsSt := { st0 with visited := addSet st0.visited nodeId,
                                  stack := addSet st0.stack nodeId }
    let res := (g.successors nodeId).foldl
      (dfsStep (fun s st => dfsNode g fuel s path st) path) (st1, false)
    if res.snd then res
    else ({ res.fst with stack := removeSet res.fst.stack nodeId }, false)

/-- One iteration of the outer loop of `findCycles`: DFS from `n` when it
is not yet visited. -/
def dfsRoot (g : Graph) (st : DfsSt) (n : Nat) : DfsSt :=
  if n ∈ st.visited then st else (dfsNode g (g.keys.length + 1) n [] st).fst

/-- The outer loop of `findCycles`: DFS from every unvisited node. -/
def findCyclesSt (g : Graph) : DfsSt :=
  g.keys.foldl (dfsRoot g) ⟨[], [], []⟩

/-- `DAGManager.findCycles()`. -/
def findCycles (g : Graph) : List (List Nat) :=
  (findCyclesSt g).cycles

/-- `DAGManager.hasCycles()`: `findCycles().length > 0`. -/
def hasCycles (g : Graph) : Bool :=
  decide ((findCycles g).length > 0)

/-- The bundle of state invariants every DFS call preserves: the visited
set grows, the cycles list is append-only, a `false` return leaves cycles
untouched, a `true` return strictly extends them, and (when the stack is
inside the visited set and the explored node is unvisited) a `false`
return restores the recursion stack. -/
def CoreRel (st : DfsSt) (out : DfsSt × Bool) : Prop :=
  (∀ x ∈ st.visited, x ∈ out.fst.visited) ∧
  (∃ d, out.fst.cycles = st.cycles ++ d) ∧
  (out.snd = false → out.fst.cycles = st.cycles) ∧
  (out.snd = true → out.fst.cycles ≠ st.cycles) ∧
  (st.stack ⊆ st.visited →
    out.fst.stack ⊆ out.fst.visited ∧ (out.snd = false → out.fst.stack = st.stack))

/-! ### Soundness of `findCycles` on acyclic graphs -/
/-- A list of nodes whose consecutive elements are connected by graph
edges. -/
def IsChain (g : Graph) : List Nat → Prop
  | [] => True
  | [_] => True
  | a :: b :: rest => (a, b) ∈ g.edges ∧ IsChain g (b :: rest)

/-- The dependency relation restricted to the task set: `a → b` when some
task with id `b` lists `a` among its dependencies and `a` is itself a
task id of the set. -/
def DepEdge (ts : List Task) (a b : Nat) : Prop :=
  a ∈ idsOf ts ∧ ∃ t ∈ ts, t.id = b ∧ a ∈ t.dependencies

/-- The dependency relation restricted to the task set has no directed
cycle. -/
def AcyclicTasks (ts : List Task) : Prop :=
  ∀ n, ¬ Relation.TransGen (DepEdge ts) n n

/-! ### Completeness of `findCycles` for mutual dependency pairs -/
/-- Count of graph keys not yet visited (the fuel measure of the DFS). -/
def unvis (g : Graph) (v : List Nat) : Nat :=
  (g.keys.filter (fun k => decide (k ∉ v))).length

/-! ### Validation (`DAGManager.validateDependencies`) -/
/-- The recursive marking DFS of `findUnreachableTasks`, fuelled. -/
def reachGo (g : Graph) : Nat → Nat → List Nat → List Nat
  | 0, _, visited => visited
  | fuel + 1, n, visited =>
    (g.successors n).foldl
      (fun v s => if s ∈ v then v else reachGo g fuel s v)
      (addSet visited n)

/-- `DAGManager.findUnreachableTasks()`: DFS forward from every root (node
with no predecessors); the payloads of unvisited nodes are returned
(`undefined` payloads included, as in the source). -/
def findUnreachableTasks (g : Graph) : List (Option Task) :=
  let roots := g.keys.filter (fun n => decide ((g.predecessors n).length = 0))
  let visited := roots.foldl (fun v r => reachGo g (g.keys.length + 1) r v) []
  (g.keys.filter (fun n => decide (n ∉ visited))).map g.node

/-- The loop of `findMissingDependencies`: reading `.dependencies` of an
`undefined` payload (a node auto-created by `setEdge`) is a `TypeError`. -/
def missingGo (g : Graph) : List Nat → List (Nat × Nat) → Except Unit (List (Nat × Nat))
  | [], acc => .ok acc
  | k :: rest, acc =>
    match g.node k with
    | none => .error ()
    | some t =>
      missingGo g rest
        (acc ++ (t.dependencies.filter (fun d => !(g.hasNode d))).map (fun d => (k, d)))

/-- `DAGManager.findMissingDependencies()`: for every node payload, every
listed dependency with no graph node yields an entry
`(taskId, missingDependency)`. -/
def findMissingDependencies (g : Graph) : Except Unit (List (Nat × Nat)) :=
  missingGo g g.keys []

/-- The structured report of `validateDependencies`. -/
structure ValidationReport where
  hasCycles : Bool
  unreachableTasks : List (Option Task)
  missingDependencies : List (Nat × Nat)
  valid : Bool
deriving DecidableEq, Repr

/-- `DAGManager.validateDependencies()`: cycle check, unreachable check and
missing-dependency check aggregated; an exception raised by the missing
check propagates. -/
def validateDependencies (g : Graph) : Except Unit ValidationReport :=
  match findMissingDependencies g with
  | .error e => .error e
  | .ok missing =>
    .ok { hasCycles := hasCycles g
          unreachableTasks := findUnreachableTasks g
          missingDependencies := missing
          valid := !(hasCycles g) && (findUnreachableTasks g).isEmpty && missing.isEmpty }

/-! ### Concrete task sets used by the claim theorems -/
/-- C1 failing input: a task referencing the non-existent dependency 99. -/
def c1task : Task := { id := 1, title := "Task 1", status := "pending", dependencies := [99] }

/-- C2 counterexample input: task 1 has no predecessors and is pending,
task 2 references the non-existent dependency 99. -/
def c2x1 : Task := { id := 1, title := "A", status := "pending", dependencies := [] }

/-- Second task of the C2 counterexample input. -/
def c2x2 : Task := { id := 2, title := "B", status := "pending", dependencies := [99] }

/-- C2 witness input: a completed root and a pending dependent. -/
def c2w1 : Task := { id := 1, title := "A", status := "completed", dependencies := [] }

/-- Second task of the C2 witness input. -/
def c2w2 : Task := { id := 2, title := "B", status := "pending", dependencies := [1] }

/-- C3 counterexample input, first task: depends on task 2. -/
def c3t1 : Task := { id := 1, title := "C", status := "pending", dependencies := [2] }

/-- C3 counterexample input, second task: depends on 1 and 3 (mutual pair
with task 3). -/
def c3t2 : Task := { id := 2, title := "A", status := "pending", dependencies := [1, 3] }

/-- C3 counterexample input, third task: depends on task 2 (mutual pair
with task 2). -/
def c3t3 : Task := { id := 3, title := "B", status := "pending", dependencies := [2] }

/-- C3 witness input: a two-task mutual cycle. -/
def c3w1 : Task := { id := 1, title := "A", status := "pending", dependencies := [2] }

/-- Second task of the C3 witness input. -/
def c3w2 : Task := { id := 2, title := "B", status := "pending", dependencies := [1] }

/-- C4 counterexample input: an acyclic task set with a dangling
dependency. -/
def c4task : Task := { id := 1, title := "T", status := "pending", dependencies := [99] }

/-- C4 witness input: an acyclic, dangling-free two-task chain. -/
def c4w1 : Task := { id := 1, title := "A", status := "pending", dependencies := [] }

/-- Second task of the C4 witness input. -/
def c4w2 : Task := { id := 2, title := "B", status := "pending", dependencies := [1] }

/-- C10 witness input (dangling half): task 2 lists missing dependency 99. -/
def c10u1 : Task := { id := 1, title := "A", status := "pending", dependencies := [] }

/-- Second task of the C10 dangling witness input. -/
def c10u2 : Task := { id := 2, title := "B", status := "pending", dependencies := [99] }

/-- C10 witness input (closed half). -/
def c10w1 : Task := { id := 1, title := "A", status := "completed", dependencies := [] }

/-- Second task of the C10 closed witness input. -/
def c10w2 : Task := { id := 2, title := "B", status := "pending", dependencies := [1] }

/-! ### Milestone and project aggregation (`getMilestoneStatus`, `getProjectStatus`) -/
/-- The payloads of all graph nodes that carry a task, in key order. -/
def tasksOfGraph (g : Graph) : List Task := g.keys.filterMap g.node

/-- Every graph node carries a task payload (no auto-created dangling
nodes). -/
def AllPayloads (g : Graph) : Prop := ∀ k ∈ g.keys, (g.node k).isSome

instance (g : Graph) : Decidable (AllPayloads g) := by
  unfold AllPayloads
  infer_instance

/-- JS `[...new Set(xs)]`: deduplicate keeping first occurrences. -/
def dedupFirst {α : Type} [DecidableEq α] (xs : List α) : List α :=
  xs.foldl (fun acc x => if x ∈ acc then acc else acc ++ [x]) []

/-- The loop of `getTasksByMilestone`: reading `.milestone` of an
`undefined` payload is a `TypeError`. -/
def milestoneGo (g : Graph) (m : String) : List Nat → List Task → Except Unit (List Task)
  | [], acc => .ok acc
  | k :: rest, acc =>
    match g.node k with
    | none => .error ()
    | some t => milestoneGo g m rest (if t.milestone = some m then acc ++ [t] else acc)

/-- `DAGManager.getTasksByMilestone(milestone)`. -/
def getTasksByMilestone (g : Graph) (m : String) : Except Unit (List Task) :=
  milestoneGo g m g.keys []

/-- The record returned by `getMilestoneStatus`. -/
structure MilestoneStatus where
  milestone : String
  total : Nat
  completed : Nat
  inProgress : Nat
  blocked : Nat
  percentComplete : JsNum
  repositories : List (Option String)
deriving DecidableEq, Repr

/-- `DAGManager.getMilestoneStatus(milestone)`: counts by status and
`percentComplete = total > 0 ? (completed / total) * 100 : 0`. -/
def getMilestoneStatus (g : Graph) (m : String) : Except Unit MilestoneStatus :=
  (getTasksByMilestone g m).map fun tasks =>
        { milestone := m
          total := tasks.length
          completed := (tasks.filter (fun t => t.status == "completed")).length
          inProgress := (tasks.filter (fun t => t.status == "in_progress")).length
          blocked := (tasks.filter (fun t => t.status == "blocked")).length
          percentComplete :=
            if 0 < tasks.length then
              ((JsNum.ofNat (tasks.filter (fun t => t.status == "completed")).length).div
                (JsNum.ofNat tasks.length)).mul (JsNum.ofNat 100)
            else JsNum.ofNat 0
          repositories := dedupFirst (tasks.map Task.repository) }

/-- `DAGManager.getCrossRepoDependencies(taskId)`: the direct dependencies
whose payload exists and whose repository differs; an explicit error when
the task itself is not in the graph. -/
def getCrossRepoDependencies (g : Graph) (taskId : Nat) : Except Unit (List Task) :=
  match g.node taskId with
  | none => .error ()
  | some task =>
    .ok (task.dependencies.filterMap (fun depId =>
      match g.node depId with
      | some depTask =>
        if depTask.repository ≠ task.repository then some depTask else none
      | none => none))

/-- `DAGManager.getCrossRepoDependents(taskId)`: the direct successors
whose payload exists and whose repository differs. -/
def getCrossRepoDependents (g : Graph) (taskId : Nat) : Except Unit (List Task) :=
  match g.node taskId with
  | none => .error ()
  | some task =>
    .ok ((g.successors taskId).filterMap (fun sucId =>
      match g.node sucId with
      | some sucTask =>
        if sucTask.repository ≠ task.repository then some sucTask else none
      | none => none))

/-- The loop of `getAllCrossRepoDependencies`. -/
def allCrossGo (g : Graph) :
    List Nat → List (Nat × Option String × List Task) →
      Except Unit (List (Nat × Option String × List Task))
  | [], acc => .ok acc
  | k :: rest, acc =>
    match getCrossRepoDependencies g k with
    | .error e => .error e
    | .ok deps =>
      match g.node k with
      | none => .error ()
      | some task =>
        allCrossGo g rest
          (if 0 < deps.length then acc ++ [(k, task.repository, deps)] else acc)

/-- `DAGManager.getAllCrossRepoDependencies()`. -/
def getAllCrossRepoDependencies (g : Graph) :
    Except Unit (List (Nat × Option String × List Task)) :=
  allCrossGo g g.keys []

/-- The record returned by `getProjectStatus`. -/
structure ProjectStatus where
  totalTasks : Nat
  completedTasks : Nat
  inProgressTasks : Nat
  blockedTasks : Nat
  repositories : List (Option String)
  milestones : List MilestoneStatus
  crossRepoDependencies : List (Nat × Option String × List Task)
  percentComplete : JsNum
deriving DecidableEq, Repr

/-- The `milestones.map(m => this.getMilestoneStatus(m))` loop. -/
def milestoneStatuses (g : Graph) : List String → Except Unit (List MilestoneStatus)
  | [] => .ok []
  | m :: rest =>
    match getMilestoneStatus g m with
    | .error e => .error e
    | .ok s =>
      match milestoneStatuses g rest with
      | .error e => .error e
      | .ok ss => .ok (s :: ss)

/-- The `nodes.map(id => this.graph.node(id))` list of `getProjectStatus`,
with the payloads unwrapped (meaningful when every payload exists). -/
def jsTasks (g : Graph) : List Task := (g.keys.map g.node).filterMap id

/-- `DAGManager.getProjectStatus()`: overall counts; note the unguarded
`percentComplete = (completedTasks / totalTasks) * 100`, which is the
non-finite `0/0` on an empty graph. -/
def getProjectStatus (g : Graph) : Except Unit ProjectStatus :=
  if (g.keys.map g.node).any (fun p => p.isNone) then .error ()
  else
    match milestoneStatuses g
        (dedupFirst (((jsTasks g).filterMap Task.milestone).filter (fun m => !(m == "")))) with
    | .error e => .error e
    | .ok msList =>
      match getAllCrossRepoDependencies g with
      | .error e => .error e
      | .ok cross =>
        .ok { totalTasks := (jsTasks g).length
              completedTasks := ((jsTasks g).filter (fun t => t.status == "completed")).length
              inProgressTasks := ((jsTasks g).filter (fun t => t.status == "in_progress")).length
              blockedTasks := ((jsTasks g).filter (fun t => t.status == "blocked")).length
              repositories := dedupFirst ((jsTasks g).map Task.repository)
              milestones := msList
              crossRepoDependencies := cross
              percentComplete :=
                ((JsNum.ofNat ((jsTasks g).filter (fun t => t.status == "completed")).length).div
                  (JsNum.ofNat (jsTasks g).length)).mul (JsNum.ofNat 100) }

/-! ### The percentage formulas of C5 -/
/-- Spec-side count: tasks of milestone `m` in the graph. -/
def milestoneTotal (g : Graph) (m : String) : Nat :=
  ((tasksOfGraph g).filter (fun t => t.milestone == some m)).length

/-- Spec-side count: completed tasks of milestone `m` in the graph. -/
def milestoneCompleted (g : Graph) (m : String) : Nat :=
  ((tasksOfGraph g).filter
    (fun t => t.status == "completed" && t.milestone == some m)).length

/-- Spec-side count: all tasks in the graph. -/
def projectTotal (g : Graph) : Nat := (tasksOfGraph g).length

/-- Spec-side count: completed tasks in the graph. -/
def projectCompleted (g : Graph) : Nat :=
  ((tasksOfGraph g).filter (fun t => t.status == "completed")).length

/-- C5 witness input: two tasks of milestone alpha, one completed. -/
def c5w1 : Task :=
  { id := 1, title := "A", status := "completed", dependencies := [],
    milestone := some "alpha" }

/-- Second task of the C5 witness input. -/
def c5w2 : Task :=
  { id := 2, title := "B", status := "in_progress", dependencies := [],
    milestone := some "alpha" }

/-! ### Recommendation scoring (`getRecommendedTasks`) -/
/-- The iterative downstream walk of `getAllDownstreamTasks`: pop a node,
push its unseen successors (recording them in the downstream set), fuelled. -/
def downstreamGo (g : Graph) : Nat → List Nat → List Nat → List Nat
  | 0, _, acc => acc
  | fuel + 1, stack, acc =>
    match stack with
    | [] => acc
    | c :: rest =>
      let step := (g.successors c).foldl
        (fun (p : List Nat × List Nat) s =>
          if s ∈ p.snd then p else (s :: p.fst, p.snd ++ [s]))
        (rest, acc)
      downstreamGo g fuel step.fst step.snd

/-- `DAGManager.getAllDownstreamTasks(taskId)`. -/
def getAllDownstreamTasks (g : Graph) (taskId : Nat) : List (Option Task) :=
  (downstreamGo g (g.keys.length + 2) [taskId] []).map g.node

/-- One scored recommendation entry (`{task, priorityScore}`). -/
structure RecEntry where
  task : Task
  priorityScore : JsNum
deriving DecidableEq, Repr

/-- The options object of `getRecommendedTasks`. -/
structure RecOptions where
  milestone : Option String := none
  repository : Option String := none
  limit : Option Nat := none
deriving DecidableEq, Repr

/-- The `continue` filters of the recommendation loop (a truthy
`options.milestone` / `options.repository` must match the task's field). -/
def optFilter (options : RecOptions) (t : Task) : Bool :=
  (match options.milestone with
   | some m => if m = "" then true else decide (t.milestone = some m)
   | none => true) &&
  (match options.repository with
   | some r => if r = "" then true else decide (t.repository = some r)
   | none => true)

/-- Factor 1: `downstream.length * 10`. -/
def downstreamFactor (g : Graph) (t : Task) : JsNum :=
  (JsNum.ofNat (getAllDownstreamTasks g t.id).length).mul (JsNum.ofNat 10)

/-- Factor 2: `(crossRepoDeps.length + crossRepoDependent.length) * 15`. -/
def crossFactor (g : Graph) (t : Task) : Except Unit JsNum :=
  match getCrossRepoDependencies g t.id with
  | .error e => .error e
  | .ok deps =>
    match getCrossRepoDependents g t.id with
    | .error e => .error e
    | .ok dependents =>
      .ok ((JsNum.ofNat (deps.length + dependents.length)).mul (JsNum.ofNat 15))

/-- Factor 3: `(1 - milestoneStatus.percentComplete / 100) * 20` for a
truthy task milestone, zero contribution otherwise. -/
def milestoneFactor (g : Graph) (t : Task) : Except Unit JsNum :=
  match t.milestone with
  | none => .ok (JsNum.ofNat 0)
  | some m =>
    if m = "" then .ok (JsNum.ofNat 0)
    else
      match getMilestoneStatus g m with
      | .error e => .error e
      | .ok ms =>
        .ok (((JsNum.ofNat 1).sub (ms.percentComplete.div (JsNum.ofNat 100))).mul
          (JsNum.ofNat 20))

/-- Factor 4: `(5 - complexity) * 5` for a truthy complexity value, zero
contribution otherwise. -/
def complexityFactor (t : Task) : JsNum :=
  match t.complexity with
  | none => JsNum.ofNat 0
  | some c =>
    if c = 0 then JsNum.ofNat 0
    else ((JsNum.ofNat 5).sub (JsNum.ofNat c)).mul (JsNum.ofNat 5)

/-- The scoring of one available task: `priorityScore` starts at 0 and the
four factors are added in order. -/
def scoreTask (g : Graph) (t : Task) : Except Unit RecEntry :=
  match crossFactor g t with
  | .error e => .error e
  | .ok cf =>
    match milestoneFactor g t with
    | .error e => .error e
    | .ok mf =>
      .ok ⟨t, ((((JsNum.ofNat 0).add (downstreamFactor g t)).add cf).add mf).add
        (complexityFactor t)⟩

/-- The scoring loop over the filtered available tasks. -/
def scoreList (g : Graph) : List Task → Except Unit (List RecEntry)
  | [] => .ok []
  | t :: rest =>
    match scoreTask g t with
    | .error e => .error e
    | .ok e1 =>
      match scoreList g rest with
      | .error e => .error e
      | .ok es => .ok (e1 :: es)

/-- The comparator `(a, b) => b.priorityScore - a.priorityScore` read as a
boolean "a sorts no later than b": cross-multiplied so that it agrees with
the rational order whenever the denominators are positive. -/
def jsNumLe (x y : JsNum) : Bool :=
  decide (x.num * y.den * (x.den * y.den) ≤ y.num * x.den * (x.den * y.den))

/-- Descending order on priority scores. -/
def scoreLe (a b : RecEntry) : Bool := jsNumLe b.priorityScore a.priorityScore

/-- Stable insertion into a sorted list. -/
def insSorted {α : Type} (le : α → α → Bool) (x : α) : List α → List α
  | [] => [x]
  | y :: ys => if le x y then x :: y :: ys else y :: insSorted le x ys

/-- Stable sort by a boolean comparator (the model of the stable
`Array.prototype.sort`). -/
def sortBy {α : Type} (le : α → α → Bool) : List α → List α
  | [] => []
  | x :: xs => insSorted le x (sortBy le xs)

/-- `DAGManager.getRecommendedTasks(options)`: score the available tasks
that pass the filters, sort descending by score, apply a truthy limit. -/
def getRecommendedTasks (g : Graph) (options : RecOptions) :
    Except Unit (List RecEntry) :=
  match getAvailableTasks g with
  | .error e => .error e
  | .ok available =>
    match scoreList g (available.filter (optFilter options)) with
    | .error e => .error e
    | .ok entries =>
      .ok (match options.limit with
        | some n => if n ≠ 0 then (sortBy scoreLe entries).take n else sortBy scoreLe entries
        | none => sortBy scoreLe entries)

/-- Witness task of complexity 4 for the recommendation ordering. -/
def c9w1 : Task :=
  { id := 1, title := "A", status := "pending", dependencies := [],
    complexity := some 4 }

/-- Witness task of complexity 1 for the recommendation ordering. -/
def c9w2 : Task :=
  { id := 2, title := "B", status := "pending", dependencies := [],
    complexity := some 1 }

/-- The recommendation list the witness graph produces. -/
def c9rec : List RecEntry := [⟨c9w2, ⟨20, 1⟩⟩, ⟨c9w1, ⟨5, 1⟩⟩]

/-! ### The snapshot schema's status enumeration (status.schema.json) -/
/-- The `enum` list of the `status` property in `status.schema.json`. -/
def statusEnum : List String := ["pending", "in_progress", "blocked", "completed"]

/-- The JSON-schema `enum` acceptance test for one status value. -/
def schemaStatusOk (s : String) : Bool := statusEnum.contains s

/-- The status part of snapshot validation: every task's status must pass
the enum test. -/
def snapshotStatusOk (statuses : List String) : Bool := statuses.all schemaStatusOk

/-- The five-value status set named by the specification
(pending/ready, in_progress, blocked, review, completed). -/
def specStatusValues : List String :=
  ["pending", "ready", "in_progress", "blocked", "review", "completed"]

/-! ### `CrossRepoHandler.addReference`: the string model -/
/-- JS `String.prototype.split(sep)` on character lists; splitting the
empty string yields one empty piece. -/
def chSplit (sep : Char) : List Char → List (List Char)
  | [] => [[]]
  | c :: rest =>
    match chSplit sep rest with
    | [] => [[]]
    | l :: ls => if c = sep then [] :: l :: ls else (c :: l) :: ls

/-- JS `Array.prototype.join('\n')`. -/
def joinNl : List (List Char) → List Char
  | [] => []
  | [l] => l
  | l :: ls => l ++ '\n' :: joinNl ls

/-- JS `String.prototype.includes`: contiguous substring test. -/
def jsIncludes (hay needle : List Char) : Bool :=
  if needle.isPrefixOf hay then true
  else
    match hay with
    | [] => false
    | _ :: rest => jsIncludes rest needle

/-- JS `Array.prototype.findIndex`: index of the first match or `-1`. -/
def findIdxInt {α : Type} (p : α → Bool) (l : List α) : Int :=
  match l.findIdx? p with
  | some n => (n : Int)
  | none => -1

/-- The scan of `addReference` for the last `- ` line of the section:
`i` is the index of the head of the remaining lines, `last` the last
reference index so far; a `##` line stops the scan. -/
def lastRefGo : List (List Char) → Nat → Int → Int
  | [], _, last => last
  | l :: rest, i, last =>
    if ['-', ' '].isPrefixOf l then lastRefGo rest (i + 1) (i : Int)
    else if ['#', '#'].isPrefixOf l then last
    else lastRefGo rest (i + 1) last

/-- `body.split('\n')`. -/
def chLines (body : List Char) : List (List Char) := chSplit '\n' body

/-- The `'## Related Issues\n'` section marker. -/
def refSectionStr : List Char := "## Related Issues\n".data

/-- The exact `'## Related Issues'` header line. -/
def refHeaderLine : List Char := "## Related Issues".data

/-- The rendered reference line `- repo#issue`. -/
def refLine (repo : List Char) (issue : Nat) : List Char :=
  '-' :: ' ' :: repo ++ '#' :: (Nat.repr issue).data

/-- `lines.findIndex(line => line === '## Related Issues')`. -/
def hdrIdx (body : List Char) : Int :=
  findIdxInt (fun l => decide (l = refHeaderLine)) (chLines body)

/-- The splice position of `addReference`: one past the last `- ` line
found scanning from just after the header index. -/
def spliceAt (body : List Char) : Nat :=
  (lastRefGo ((chLines body).drop (Int.toNat (hdrIdx body + 1)))
    (Int.toNat (hdrIdx body + 1)) (hdrIdx body) + 1).toNat

/-- `CrossRepoHandler.addReference(body, repo, issue)`. -/
def addReference (body repo : List Char) (issue : Nat) : List Char :=
  if jsIncludes body refSectionStr then
    if jsIncludes body (refLine repo issue) then body
    else joinNl (List.insertIdx (spliceAt body) (refLine repo issue) (chLines body))
  else body ++ '\n' :: '\n' :: refSectionStr ++ refLine repo issue ++ ['\n']

/-- Counterexample body for C7: the section exists and lists
`- trade-manager#55`, of which the fresh reference `- trade-manager#5`
is a proper substring. -/
def c7body : List Char := "## Related Issues\n- trade-manager#55".data

/-- Witness body for the insertion case of C7. -/
def c7wbody : List Char :=
  "Intro\n\n## Related Issues\n- trade-dashboard#7\n\n## Other\ntext".data

/-! ### `CrossRepoHandler.parseReferences`: YAML reference extraction -/
mutual
/-- A parsed YAML document tree (`yaml.load` output): scalars, arrays and
string-keyed maps. -/
inductive Yaml where
  | str : String → Yaml
  | num : Int → Yaml
  | bool : Bool → Yaml
  | null : Yaml
  | arr : YamlList → Yaml
  | map : YamlKVs → Yaml

/-- The elements of a YAML array. -/
inductive YamlList where
  | nil : YamlList
  | cons : Yaml → YamlList → YamlList

/-- The key/value pairs of a YAML map. -/
inductive YamlKVs where
  | nil : YamlKVs
  | cons : String → Yaml → YamlKVs → YamlKVs
end

/-- JS property access `obj[key]` on a map (first matching key). -/
def kvLookup : YamlKVs → String → Option Yaml
  | .nil, _ => none
  | .cons k v rest, key => if k = key then some v else kvLookup rest key

/-- `this.repos`, the known repository names. -/
def knownRepos : List (List Char) :=
  ["trade-manager".data, "trade-dashboard".data, "trade-discovery".data,
   "market-analysis".data]

/-- `parseInt` on a run of decimal digits. -/
def digitsToNat (l : List Char) : Nat :=
  l.foldl (fun a c => a * 10 + (c.toNat - '0'.toNat)) 0

/-- The regex `^([^:]+):(\d+)$`: a non-empty colon-free name, a colon,
and a non-empty run of digits. -/
def matchRef (s : List Char) : Option (List Char × Nat) :=
  match s.span (fun c => c != ':') with
  | (name, rest) =>
    match rest with
    | ':' :: digits =>
      if name ≠ [] ∧ digits ≠ [] ∧ digits.all Char.isDigit then
        some (name, digitsToNat digits)
      else none
    | _ => none

/-- The reference contributed by one map node: a truthy string-valued
`reference` field that matches the regex and names a known repository. -/
def refOf (kvs : YamlKVs) : List (List Char × Nat) :=
  match kvLookup kvs "reference" with
  | some (.str s) =>
    if s = "" then []
    else
      match matchRef s.data with
      | some p => if p.1 ∈ knownRepos then [p] else []
      | none => []
  | _ => []

mutual
/-- The recursive `findRefs` walk over a parsed document (a map node
first contributes its own reference, then all values are visited). -/
def collectRefs : Yaml → List (List Char × Nat)
  | .str _ => []
  | .num _ => []
  | .bool _ => []
  | .null => []
  | .arr xs => collectList xs
  | .map kvs => refOf kvs ++ collectKVs kvs

/-- `findRefs` over the elements of an array. -/
def collectList : YamlList → List (List Char × Nat)
  | .nil => []
  | .cons y rest => collectRefs y ++ collectList rest

/-- `findRefs` over the values of a map. -/
def collectKVs : YamlKVs → List (List Char × Nat)
  | .nil => []
  | .cons _ v rest => collectRefs v ++ collectKVs rest
end

/-- `CrossRepoHandler.parseReferences(content)`, over the outcome of
`yaml.load`: an exception or a falsy document yields `[]`. -/
def parseReferences (content : Except Unit (Option Yaml)) :
    List (List Char × Nat) :=
  match content with
  | .error _ => []
  | .ok none => []
  | .ok (some y) => collectRefs y

/-- Spec-side: keep a reference text iff it matches the regex and names a
known repository. -/
def refFilter (s : String) : Option (List Char × Nat) :=
  match matchRef s.data with
  | some p => if p.1 ∈ knownRepos then some p else none
  | none => none

/-- Spec-side: the string-valued `reference` field of one map node. -/
def ownRef (kvs : YamlKVs) : List String :=
  match kvLookup kvs "reference" with
  | some (.str s) => [s]
  | _ => []

mutual
/-- Spec-side: all string-valued `reference` fields of a document, in
traversal order. -/
def refStrings : Yaml → List String
  | .str _ => []
  | .num _ => []
  | .bool _ => []
  | .null => []
  | .arr xs => refStringsList xs
  | .map kvs => ownRef kvs ++ refStringsKVs kvs

/-- Spec-side collection over array elements. -/
def refStringsList : YamlList → List String
  | .nil => []
  | .cons y rest => refStrings y ++ refStringsList rest

/-- Spec-side collection over map values. -/
def refStringsKVs : YamlKVs → List String
  | .nil => []
  | .cons _ v rest => refStrings v ++ refStringsKVs rest
end

/-! ## Theorems -/

/-! ### Characterisation of the node list and of `buildGraph` -/
theorem insertNode_cons_lt {a : Nat} {b : Option Task} {rest : List (Nat × Option Task)}
    {k : Nat} {v : Option Task} (h : k < a) :
    insertNode ((a, b) :: rest) k v = (k, v) :: (a, b) :: rest := by
  simp [insertNode, h]

theorem insertNode_cons_eq {b : Option Task} {rest : List (Nat × Option Task)}
    {k : Nat} {v : Option Task} :
    insertNode ((k, b) :: rest) k v = (k, v) :: rest := by
  simp [insertNode]

theorem insertNode_cons_gt {a : Nat} {b : Option Task} {rest : List (Nat × Option Task)}
    {k : Nat} {v : Option Task} (h1 : ¬ k < a) (h2 : ¬ k = a) :
    insertNode ((a, b) :: rest) k v = (a, b) :: insertNode rest k v := by
  simp [insertNode, h1, h2]

theorem insertNode_keys_mem (l : List (Nat × Option Task)) (k : Nat)
    (v : Option Task) (k' : Nat) :
    k' ∈ (insertNode l k v).map Prod.fst ↔ k' = k ∨ k' ∈ l.map Prod.fst := by
  induction l with
  | nil => simp [insertNode]
  | cons p rest ih =>
    obtain ⟨a, b⟩ := p
    by_cases h1 : k < a
    · rw [insertNode_cons_lt h1]
      simp only [List.map_cons, List.mem_cons]
    · by_cases h2 : k = a
      · subst h2
        rw [insertNode_cons_eq]
        simp only [List.map_cons, List.mem_cons]
        tauto
      · rw [insertNode_cons_gt h1 h2]
        simp only [List.map_cons, List.mem_cons, ih]
        tauto

theorem insertNode_find_self (l : List (Nat × Option Task)) (k : Nat)
    (v : Option Task) :
    (insertNode l k v).find? (fun p => p.fst = k) = some (k, v) := by
  induction l with
  | nil => simp [insertNode]
  | cons p rest ih =>
    obtain ⟨a, b⟩ := p
    by_cases h1 : k < a
    · rw [insertNode_cons_lt h1]
      simp
    · by_cases h2 : k = a
      · subst h2
        rw [insertNode_cons_eq]
        simp
      · rw [insertNode_cons_gt h1 h2]
        rw [List.find?_cons_of_neg, ih]
        simp
        exact fun h => h2 h.symm

theorem insertNode_find_other (l : List (Nat × Option Task)) (k : Nat)
    (v : Option Task) (k' : Nat) (hne : k' ≠ k) :
    (insertNode l k v).find? (fun p => p.fst = k') =
      l.find? (fun p => p.fst = k') := by
  induction l with
  | nil =>
    simp [insertNode]
    exact fun h => absurd h.symm hne
  | cons p rest ih =>
    obtain ⟨a, b⟩ := p
    have hkk : ((k : Nat) = k') = False := by
      simp
      exact fun h => hne h.symm
    by_cases h1 : k < a
    · rw [insertNode_cons_lt h1]
      rw [List.find?_cons_of_neg]
      simp [hkk]
    · by_cases h2 : k = a
      · subst h2
        rw [insertNode_cons_eq]
        rw [List.find?_cons_of_neg, List.find?_cons_of_neg]
        · simp [hkk]
        · simp [hkk]
      · rw [insertNode_cons_gt h1 h2]
        by_cases h3 : a = k'
        · subst h3
          rw [List.find?_cons_of_pos, List.find?_cons_of_pos] <;> simp
        · rw [List.find?_cons_of_neg, List.find?_cons_of_neg, ih] <;> simp [h3]

theorem setNode_node_self (g : Graph) (k : Nat) (t : Task) :
    (setNode g k t).node k = some t := by
  simp [setNode, Graph.node, insertNode_find_self]

theorem setNode_node_other (g : Graph) (k : Nat) (t : Task) (k' : Nat)
    (h : k' ≠ k) : (setNode g k t).node k' = g.node k' := by
  simp [setNode, Graph.node, insertNode_find_other _ _ _ _ h]

theorem setNode_keys_mem (g : Graph) (k : Nat) (t : Task) (k' : Nat) :
    k' ∈ (setNode g k t).keys ↔ k' = k ∨ k' ∈ g.keys := by
  show k' ∈ (insertNode g.nodes k (some t)).map Prod.fst ↔ _
  exact insertNode_keys_mem g.nodes k (some t) k'

theorem setNode_edges (g : Graph) (k : Nat) (t : Task) :
    (setNode g k t).edges = g.edges := rfl

theorem ensureNode_eq_of_has (g : Graph) (k : Nat) (h : g.hasNode k = true) :
    ensureNode g k = g := by
  simp [ensureNode, h]

theorem ensureNode_keys_mem (g : Graph) (k : Nat) (k' : Nat) :
    k' ∈ (ensureNode g k).keys ↔ k' = k ∨ k' ∈ g.keys := by
  unfold ensureNode
  by_cases hk : g.hasNode k
  · simp only [hk, if_true]
    constructor
    · intro h
      exact Or.inr h
    · rintro (h | h)
      · subst h
        simpa [Graph.hasNode, List.elem_iff] using hk
      · exact h
  · simp only [hk, if_false, Bool.false_eq_true]
    show k' ∈ (insertNode g.nodes k none).map Prod.fst ↔ _
    exact insertNode_keys_mem g.nodes k none k'

theorem ensureNode_edges (g : Graph) (k : Nat) :
    (ensureNode g k).edges = g.edges := by
  unfold ensureNode
  by_cases hk : g.hasNode k <;> simp [hk]

theorem node_eq_none_of_not_has (g : Graph) (k : Nat) (h : ¬ g.hasNode k = true) :
    g.node k = none := by
  have : g.nodes.find? (fun p => p.fst = k) = none := by
    rw [List.find?_eq_none]
    intro p hp hpk
    simp at hpk
    apply h
    simp only [Graph.hasNode, Graph.keys, List.elem_iff]
    exact List.mem_map.mpr ⟨p, hp, hpk⟩
  simp [Graph.node, this]

theorem ensureNode_node_none (g : Graph) (k k' : Nat) (h : g.node k' = none) :
    (ensureNode g k).node k' = none := by
  unfold ensureNode
  by_cases hk : g.hasNode k
  · simpa [hk]
  · simp only [hk, if_false, Bool.false_eq_true]
    by_cases hEq : k' = k
    · subst hEq
      show Graph.node _ k' = none
      simp [Graph.node, insertNode_find_self]
    · show Graph.node _ k' = none
      simp only [Graph.node]
      rw [insertNode_find_other _ _ _ _ hEq]
      simpa [Graph.node] using h

theorem ensureNode_node_some (g : Graph) (k k' : Nat) (u : Task)
    (h : g.node k' = some u) : (ensureNode g k).node k' = some u := by
  unfold ensureNode
  by_cases hk : g.hasNode k
  · simpa [hk]
  · simp only [hk, if_false, Bool.false_eq_true]
    by_cases hEq : k' = k
    · subst hEq
      rw [node_eq_none_of_not_has g _ hk] at h
      exact absurd h (by simp)
    · show Graph.node _ k' = some u
      simp only [Graph.node]
      rw [insertNode_find_other _ _ _ _ hEq]
      simpa [Graph.node] using h

theorem setEdge_nodes (g : Graph) (v w : Nat) :
    (setEdge g v w).nodes = (ensureNode (ensureNode g v) w).nodes := by
  unfold setEdge
  split <;> rfl

theorem setEdge_keys (g : Graph) (v w : Nat) :
    (setEdge g v w).keys = (ensureNode (ensureNode g v) w).keys := by
  unfold Graph.keys
  rw [setEdge_nodes]

theorem setEdge_node_eq (g : Graph) (v w : Nat) (k : Nat) :
    (setEdge g v w).node k = (ensureNode (ensureNode g v) w).node k := by
  unfold Graph.node
  rw [setEdge_nodes]

theorem setEdge_edges_mem (g : Graph) (v w : Nat) (e : Nat × Nat) :
    e ∈ (setEdge g v w).edges ↔ e = (v, w) ∨ e ∈ g.edges := by
  unfold setEdge
  split
  next h =>
    rw [ensureNode_edges, ensureNode_edges]
    rw [ensureNode_edges, ensureNode_edges, List.elem_iff] at h
    constructor
    · exact Or.inr
    · rintro (rfl | hm)
      · exact h
      · exact hm
  next h =>
    show e ∈ (ensureNode (ensureNode g v) w).edges ++ [(v, w)] ↔ _
    rw [ensureNode_edges, ensureNode_edges]
    simp
    tauto

theorem setEdge_keys_mem (g : Graph) (v w : Nat) (k : Nat) :
    k ∈ (setEdge g v w).keys ↔ k = v ∨ k = w ∨ k ∈ g.keys := by
  rw [setEdge_keys, ensureNode_keys_mem, ensureNode_keys_mem]
  tauto

theorem setEdge_node_none (g : Graph) (v w : Nat) (k : Nat) (h : g.node k = none) :
    (setEdge g v w).node k = none := by
  rw [setEdge_node_eq]
  exact ensureNode_node_none _ _ _ (ensureNode_node_none _ _ _ h)

theorem setEdge_node_some (g : Graph) (v w : Nat) (k : Nat) (u : Task)
    (h : g.node k = some u) : (setEdge g v w).node k = some u := by
  rw [setEdge_node_eq]
  exact ensureNode_node_some _ _ _ _ (ensureNode_node_some _ _ _ _ h)

theorem setEdge_node_back (g : Graph) (v w : Nat) (k : Nat) (u : Task)
    (h : (setEdge g v w).node k = some u) : g.node k = some u := by
  cases hg : g.node k with
  | none => rw [setEdge_node_none g v w k hg] at h; exact absurd h (by simp)
  | some u' =>
    rw [setEdge_node_some g v w k u' hg] at h
    exact h ▸ rfl

theorem mem_successors (g : Graph) (v w : Nat) :
    w ∈ g.successors v ↔ w ∈ g.keys ∧ (v, w) ∈ g.edges := by
  simp [Graph.successors, List.mem_filter, List.elem_iff]

theorem mem_predecessors (g : Graph) (v u : Nat) :
    u ∈ g.predecessors v ↔ u ∈ g.keys ∧ (u, v) ∈ g.edges := by
  simp [Graph.predecessors, List.mem_filter, List.elem_iff]

/-! ### The two folds of `buildGraph` -/
theorem foldNodes_keys_mem (ts : List Task) (g : Graph) (k : Nat) :
    k ∈ (ts.foldl (fun g t => setNode g t.id t) g).keys ↔
      k ∈ idsOf ts ∨ k ∈ g.keys := by
  induction ts generalizing g with
  | nil => simp [idsOf]
  | cons t rest ih =>
    simp only [List.foldl_cons, ih, idsOf, List.map_cons, List.mem_cons]
    rw [setNode_keys_mem]
    show _ ∨ k = t.id ∨ _ ↔ (k = t.id ∨ _) ∨ _
    constructor
    · rintro (h | h | h)
      · exact Or.inl (Or.inr h)
      · exact Or.inl (Or.inl h)
      · exact Or.inr h
    · rintro ((h | h) | h)
      · exact Or.inr (Or.inl h)
      · exact Or.inl h
      · exact Or.inr (Or.inr h)

theorem foldNodes_edges (ts : List Task) (g : Graph) :
    (ts.foldl (fun g t => setNode g t.id t) g).edges = g.edges := by
  induction ts generalizing g with
  | nil => rfl
  | cons t rest ih => simp only [List.foldl_cons, ih, setNode_edges]

theorem foldNodes_node_back (ts : List Task) (g : Graph) (k : Nat) (u : Task)
    (h : (ts.foldl (fun g t => setNode g t.id t) g).node k = some u) :
    (u ∈ ts ∧ u.id = k) ∨ g.node k = some u := by
  induction ts generalizing g with
  | nil => exact Or.inr h
  | cons t rest ih =>
    simp only [List.foldl_cons] at h
    rcases ih (setNode g t.id t) h with h1 | h1
    · exact Or.inl ⟨List.mem_cons_of_mem _ h1.1, h1.2⟩
    · by_cases hk : k = t.id
      · subst hk
        rw [setNode_node_self] at h1
        have hut : t = u := Option.some.inj h1
        exact Or.inl ⟨hut ▸ List.mem_cons_self _ _, by rw [← hut]⟩
      · rw [setNode_node_other g t.id t k hk] at h1
        exact Or.inr h1

theorem foldNodes_node_pres (ts : List Task) (g : Graph) (k : Nat)
    (h : k ∉ idsOf ts) :
    (ts.foldl (fun g t => setNode g t.id t) g).node k = g.node k := by
  induction ts generalizing g with
  | nil => rfl
  | cons t rest ih =>
    simp only [idsOf, List.map_cons, List.mem_cons, not_or] at h
    simp only [List.foldl_cons]
    rw [ih (setNode g t.id t) (by simpa [idsOf] using h.2)]
    exact setNode_node_other g t.id t k h.1

theorem foldNodes_node_fwd (ts : List Task) (g : Graph) (t : Task)
    (nodup : (idsOf ts).Nodup) (ht : t ∈ ts) :
    (ts.foldl (fun g t => setNode g t.id t) g).node t.id = some t := by
  induction ts generalizing g with
  | nil => exact absurd ht (by simp)
  | cons a rest ih =>
    simp only [idsOf, List.map_cons, List.nodup_cons] at nodup
    simp only [List.foldl_cons]
    rcases List.mem_cons.mp ht with h | h
    · subst h
      rw [foldNodes_node_pres rest _ t.id (by simpa [idsOf] using nodup.1)]
      exact setNode_node_self g t.id t
    · exact ih (setNode g a.id a) (by simpa [idsOf] using nodup.2) h

theorem foldEdgesInner_edges_mem (ds : List Nat) (tid : Nat) (g : Graph)
    (e : Nat × Nat) :
    e ∈ (ds.foldl (fun g' d => setEdge g' d tid) g).edges ↔
      (∃ d ∈ ds, e = (d, tid)) ∨ e ∈ g.edges := by
  induction ds generalizing g with
  | nil => simp
  | cons d rest ih =>
    simp only [List.foldl_cons, ih, setEdge_edges_mem, List.mem_cons]
    constructor
    · rintro (⟨d', hd', rfl⟩ | (h | h))
      · exact Or.inl ⟨d', Or.inr hd', rfl⟩
      · exact Or.inl ⟨d, Or.inl rfl, h⟩
      · exact Or.inr h
    · rintro (⟨d', hd' | hd', rfl⟩ | h)
      · subst hd'
        exact Or.inr (Or.inl rfl)
      · exact Or.inl ⟨d', hd', rfl⟩
      · exact Or.inr (Or.inr h)

theorem foldEdgesInner_keys_mem (ds : List Nat) (tid : Nat) (g : Graph)
    (k : Nat) :
    k ∈ (ds.foldl (fun g' d => setEdge g' d tid) g).keys ↔
      (∃ d ∈ ds, k = d ∨ k = tid) ∨ k ∈ g.keys := by
  induction ds generalizing g with
  | nil => simp
  | cons d rest ih =>
    simp only [List.foldl_cons, ih, setEdge_keys_mem, List.mem_cons]
    constructor
    · rintro (⟨d', hd', h⟩ | (h | h | h))
      · exact Or.inl ⟨d', Or.inr hd', h⟩
      · exact Or.inl ⟨d, Or.inl rfl, Or.inl h⟩
      · exact Or.inl ⟨d, Or.inl rfl, Or.inr h⟩
      · exact Or.inr h
    · rintro (⟨d', hd' | hd', h⟩ | h)
      · subst hd'
        exact Or.inr (by tauto)
      · exact Or.inl ⟨d', hd', h⟩
      · exact Or.inr (by tauto)

theorem foldEdgesInner_node_none (ds : List Nat) (tid : Nat) (g : Graph)
    (k : Nat) (h : g.node k = none) :
    (ds.foldl (fun g' d => setEdge g' d tid) g).node k = none := by
  induction ds generalizing g with
  | nil => exact h
  | cons d rest ih =>
    simp only [List.foldl_cons]
    exact ih _ (setEdge_node_none g d tid k h)

theorem foldEdgesInner_node_some (ds : List Nat) (tid : Nat) (g : Graph)
    (k : Nat) (u : Task) (h : g.node k = some u) :
    (ds.foldl (fun g' d => setEdge g' d tid) g).node k = some u := by
  induction ds generalizing g with
  | nil => exact h
  | cons d rest ih =>
    simp only [List.foldl_cons]
    exact ih _ (setEdge_node_some g d tid k u h)

theorem foldEdges_edges_mem (ts : List Task) (g : Graph) (e : Nat × Nat) :
    e ∈ (ts.foldl
        (fun g t => t.dependencies.foldl (fun g' d => setEdge g' d t.id) g)
        g).edges ↔
      (∃ t ∈ ts, ∃ d ∈ t.dependencies, e = (d, t.id)) ∨ e ∈ g.edges := by
  induction ts generalizing g with
  | nil => simp
  | cons t rest ih =>
    simp only [List.foldl_cons, ih, foldEdgesInner_edges_mem, List.mem_cons]
    constructor
    · rintro (⟨t', ht', hd⟩ | (h | h))
      · exact Or.inl ⟨t', Or.inr ht', hd⟩
      · exact Or.inl ⟨t, Or.inl rfl, h⟩
      · exact Or.inr h
    · rintro (⟨t', ht' | ht', hd⟩ | h)
      · subst ht'
        exact Or.inr (Or.inl hd)
      · exact Or.inl ⟨t', ht', hd⟩
      · exact Or.inr (Or.inr h)

theorem foldEdges_keys_mem (ts : List Task) (g : Graph) (k : Nat) :
    k ∈ (ts.foldl
        (fun g t => t.dependencies.foldl (fun g' d => setEdge g' d t.id) g)
        g).keys ↔
      (∃ t ∈ ts, ∃ d ∈ t.dependencies, k = d ∨ k = t.id) ∨ k ∈ g.keys := by
  induction ts generalizing g with
  | nil => simp
  | cons t rest ih =>
    simp only [List.foldl_cons, ih, foldEdgesInner_keys_mem, List.mem_cons]
    constructor
    · rintro (⟨t', ht', hd⟩ | (⟨d, hd, h⟩ | h))
      · exact Or.inl ⟨t', Or.inr ht', hd⟩
      · exact Or.inl ⟨t, Or.inl rfl, d, hd, h⟩
      · exact Or.inr h
    · rintro (⟨t', ht' | ht', hd⟩ | h)
      · subst ht'
        exact Or.inr (Or.inl hd)
      · exact Or.inl ⟨t', ht', hd⟩
      · exact Or.inr (Or.inr h)

theorem foldEdges_node_none (ts : List Task) (g : Graph) (k : Nat)
    (h : g.node k = none) :
    (ts.foldl
        (fun g t => t.dependencies.foldl (fun g' d => setEdge g' d t.id) g)
        g).node k = none := by
  induction ts generalizing g with
  | nil => exact h
  | cons t rest ih =>
    simp only [List.foldl_cons]
    exact ih _ (foldEdgesInner_node_none _ _ _ _ h)

theorem foldEdges_node_some (ts : List Task) (g : Graph) (k : Nat) (u : Task)
    (h : g.node k = some u) :
    (ts.foldl
        (fun g t => t.dependencies.foldl (fun g' d => setEdge g' d t.id) g)
        g).node k = some u := by
  induction ts generalizing g with
  | nil => exact h
  | cons t rest ih =>
    simp only [List.foldl_cons]
    exact ih _ (foldEdgesInner_node_some _ _ _ _ _ h)

/-! ### Characterisation of `buildGraph` -/
theorem buildGraph_edges_mem (ts : List Task) (e : Nat × Nat) :
    e ∈ (buildGraph ts).edges ↔
      ∃ t ∈ ts, ∃ d ∈ t.dependencies, e = (d, t.id) := by
  unfold buildGraph
  rw [foldEdges_edges_mem, foldNodes_edges]
  simp [emptyGraph]

theorem buildGraph_keys_mem (ts : List Task) (k : Nat) :
    k ∈ (buildGraph ts).keys ↔
      k ∈ idsOf ts ∨ ∃ t ∈ ts, k ∈ t.dependencies := by
  unfold buildGraph
  rw [foldEdges_keys_mem, foldNodes_keys_mem]
  constructor
  · rintro (⟨t, ht, d, hd, rfl | rfl⟩ | (h | h))
    · exact Or.inr ⟨t, ht, hd⟩
    · exact Or.inl (List.mem_map.mpr ⟨t, ht, rfl⟩)
    · exact Or.inl h
    · simp [emptyGraph, Graph.keys] at h
  · rintro (h | ⟨t, ht, hd⟩)
    · exact Or.inr (Or.inl h)
    · exact Or.inl ⟨t, ht, k, hd, Or.inl rfl⟩

theorem buildGraph_node_back (ts : List Task) (k : Nat) (u : Task)
    (h : (buildGraph ts).node k = some u) : u ∈ ts ∧ u.id = k := by
  unfold buildGraph at h
  have h0 : ∀ g : Graph,
      (ts.foldl
        (fun g t => t.dependencies.foldl (fun g' d => setEdge g' d t.id) g)
        g).node k = some u → g.node k = some u ∨ False → True := fun _ _ _ => trivial
  -- peel the edge fold: it never turns a payload into `some`
  have hEdge : (ts.foldl (fun g t => setNode g t.id t) emptyGraph).node k = some u := by
    by_contra hne
    cases hg : (ts.foldl (fun g t => setNode g t.id t) emptyGraph).node k with
    | none => rw [foldEdges_node_none _ _ _ hg] at h; exact absurd h (by simp)
    | some u' =>
      rw [foldEdges_node_some _ _ _ _ hg] at h
      exact hne (hg.trans (by injection h with h'; rw [h']))
  rcases foldNodes_node_back ts emptyGraph k u hEdge with h1 | h1
  · exact h1
  · simp [emptyGraph, Graph.node] at h1

theorem buildGraph_node_fwd (ts : List Task) (t : Task)
    (nodup : (idsOf ts).Nodup) (ht : t ∈ ts) :
    (buildGraph ts).node t.id = some t := by
  unfold buildGraph
  exact foldEdges_node_some _ _ _ _ (foldNodes_node_fwd ts emptyGraph t nodup ht)

theorem buildGraph_node_dangling (ts : List Task) (k : Nat)
    (h : k ∉ idsOf ts) : (buildGraph ts).node k = none := by
  unfold buildGraph
  apply foldEdges_node_none
  rw [foldNodes_node_pres ts emptyGraph k h]
  simp [emptyGraph, Graph.node]

theorem buildGraph_edge_target (ts : List Task) (u v : Nat)
    (h : (u, v) ∈ (buildGraph ts).edges) : v ∈ idsOf ts := by
  rcases (buildGraph_edges_mem ts (u, v)).mp h with ⟨t, ht, d, _, he⟩
  injection he with h1 h2
  exact h2 ▸ List.mem_map.mpr ⟨t, ht, rfl⟩

theorem allDepsCompleted_total (g : Graph) (l : List Nat)
    (h : ∀ p ∈ l, (g.node p).isSome) :
    allDepsCompleted g l = .ok (l.all (predCompleted g)) := by
  induction l with
  | nil => rfl
  | cons p rest ih =>
    have hp := h p (List.mem_cons_self _ _)
    cases hu : g.node p with
    | none => rw [hu] at hp; simp at hp
    | some u =>
      simp only [allDepsCompleted, hu]
      by_cases hs : u.status == "completed"
      · rw [if_pos hs, ih (fun q hq => h q (List.mem_cons_of_mem _ hq))]
        have : predCompleted g p = true := by simp [predCompleted, hu, hs]
        simp [this]
      · rw [if_neg hs]
        have : predCompleted g p = false := by
          simp only [predCompleted, hu]
          simpa using hs
        simp [this]

theorem availGo_total (g : Graph) (l : List Nat) (acc : List Task)
    (h : ∀ k ∈ l, (g.node k).isSome)
    (hp : ∀ k ∈ l, ∀ p ∈ g.predecessors k, (g.node p).isSome) :
    availGo g l acc = .ok (acc ++ l.filterMap (availSelect g)) := by
  induction l generalizing acc with
  | nil => simp [availGo]
  | cons k rest ih =>
    have hk := h k (List.mem_cons_self _ _)
    have hdeps := allDepsCompleted_total g (g.predecessors k)
      (hp k (List.mem_cons_self _ _))
    cases hu : g.node k with
    | none => rw [hu] at hk; simp at hk
    | some t =>
      by_cases hall : (g.predecessors k).all (predCompleted g)
      · rw [hall] at hdeps
        simp only [availGo, hdeps, hu]
        rw [ih _ (fun q hq => h q (List.mem_cons_of_mem _ hq))
            (fun q hq => hp q (List.mem_cons_of_mem _ hq))]
        by_cases hs : t.status == "completed"
        · rw [if_pos hs]
          have hsel : availSelect g k = none := by
            simp [availSelect, hu, allPredsCompleted, hs]
          rw [List.filterMap_cons, hsel]
        · rw [if_neg hs]
          have hsel : availSelect g k = some t := by
            simp only [availSelect, hu, allPredsCompleted]
            rw [if_pos (by simp_all)]
          rw [List.filterMap_cons, hsel]
          simp
      · rw [show ((g.predecessors k).all (predCompleted g)) = false from by
            simpa using hall] at hdeps
        simp only [availGo, hdeps]
        rw [ih _ (fun q hq => h q (List.mem_cons_of_mem _ hq))
            (fun q hq => hp q (List.mem_cons_of_mem _ hq))]
        have hsel : availSelect g k = none := by
          simp only [availSelect, hu, allPredsCompleted]
          rw [if_neg (by simp_all)]
        rw [List.filterMap_cons, hsel]

theorem availGo_ok_step (g : Graph) (l : List Nat) (acc : List Task)
    (res : List Task) (h : availGo g l acc = .ok res) (k : Nat) (hk : k ∈ l)
    (hpreds : allDepsCompleted g (g.predecessors k) = .ok true) :
    (g.node k).isSome := by
  induction l generalizing acc with
  | nil => exact absurd hk (by simp)
  | cons k' rest ih =>
    rcases List.mem_cons.mp hk with rfl | hk'
    · simp only [availGo, hpreds] at h
      cases hu : g.node k with
      | none => rw [hu] at h; exact absurd h (by simp)
      | some t => simp [hu]
    · simp only [availGo] at h
      cases hd : allDepsCompleted g (g.predecessors k') with
      | error e => rw [hd] at h; exact absurd h (by simp)
      | ok b =>
        rw [hd] at h
        cases b with
        | false => exact ih _ h hk'
        | true =>
          cases hu : g.node k' with
          | none => rw [hu] at h; exact absurd h (by simp)
          | some t =>
            rw [hu] at h
            exact ih _ h hk'

theorem foldNodes_node_isSome (ts : List Task) (g : Graph) (k : Nat)
    (hk : k ∈ idsOf ts) :
    ((ts.foldl (fun g t => setNode g t.id t) g).node k).isSome := by
  induction ts generalizing g with
  | nil => exact absurd hk (by simp [idsOf])
  | cons t rest ih =>
    simp only [List.foldl_cons]
    by_cases hr : k ∈ idsOf rest
    · exact ih _ hr
    · have hkt : k = t.id := by
        simp only [idsOf, List.map_cons, List.mem_cons] at hk
        rcases hk with h | h
        · exact h
        · exact absurd h hr
      rw [hkt, foldNodes_node_pres rest _ t.id (hkt ▸ hr), setNode_node_self]
      rfl

theorem buildGraph_node_isSome (ts : List Task) (k : Nat) (hk : k ∈ idsOf ts) :
    ((buildGraph ts).node k).isSome := by
  unfold buildGraph
  have h := foldNodes_node_isSome ts emptyGraph k hk
  cases hu : (ts.foldl (fun g t => setNode g t.id t) emptyGraph).node k with
  | none => rw [hu] at h; simp at h
  | some u => rw [foldEdges_node_some _ _ _ _ hu]; rfl

theorem buildGraph_keys_isSome (ts : List Task) (closed : DepsClosed ts)
    (k : Nat) (hk : k ∈ (buildGraph ts).keys) :
    ((buildGraph ts).node k).isSome := by
  apply buildGraph_node_isSome
  rcases (buildGraph_keys_mem ts k).mp hk with h | ⟨t, ht, hd⟩
  · exact h
  · exact closed t ht k hd

theorem getAvailableTasks_ok_of_closed (ts : List Task) (closed : DepsClosed ts) :
    getAvailableTasks (buildGraph ts) =
      .ok (((buildGraph ts).keys).filterMap (availSelect (buildGraph ts))) := by
  unfold getAvailableTasks
  rw [availGo_total]
  · rfl
  · exact fun k hk => buildGraph_keys_isSome ts closed k hk
  · intro k _ p hp
    have := (mem_predecessors (buildGraph ts) k p).mp hp
    exact buildGraph_keys_isSome ts closed p this.1

theorem availSelect_eq_some_iff (g : Graph) (k : Nat) (t : Task) :
    availSelect g k = some t ↔
      g.node k = some t ∧ allPredsCompleted g k = true ∧
        ¬ t.status = "completed" := by
  unfold availSelect
  cases hu : g.node k with
  | none => simp
  | some u =>
    show (if (allPredsCompleted g k && !(u.status == "completed")) = true
        then some u else none) = some t ↔ _
    by_cases hc : (allPredsCompleted g k && !(u.status == "completed")) = true
    · rw [if_pos hc]
      rw [Bool.and_eq_true] at hc
      constructor
      · rintro h
        injection h with h
        subst h
        refine ⟨rfl, hc.1, ?_⟩
        have := hc.2
        simp at this
        exact this
      · rintro ⟨h1, _, _⟩
        injection h1 with h1
        rw [h1]
    · rw [if_neg hc]
      rw [Bool.and_eq_true, not_and] at hc
      constructor
      · rintro h
        exact absurd h (by simp)
      · rintro ⟨h1, h2, h3⟩
        injection h1 with h1
        subst h1
        exact absurd (by simpa using h3) (hc h2)

theorem predCompleted_iff (g : Graph) (p : Nat) :
    predCompleted g p = true ↔
      ∃ u, g.node p = some u ∧ u.status = "completed" := by
  unfold predCompleted
  cases hu : g.node p with
  | none => simp
  | some u => simp

theorem getAvailableTasks_mem_characterisation (ts : List Task)
    (nodup : (idsOf ts).Nodup) (closed : DepsClosed ts) :
    ∃ l, getAvailableTasks (buildGraph ts) = .ok l ∧
      ∀ t ∈ ts, (t ∈ l ↔ ¬ t.status = "completed" ∧
        ∀ p ∈ (buildGraph ts).predecessors t.id,
          ∃ u, (buildGraph ts).node p = some u ∧ u.status = "completed") := by
  refine ⟨_, getAvailableTasks_ok_of_closed ts closed, ?_⟩
  intro t ht
  rw [List.mem_filterMap]
  constructor
  · rintro ⟨k, hk, hsel⟩
    rcases (availSelect_eq_some_iff _ k t).mp hsel with ⟨hnode, hall, hst⟩
    have hkt : t.id = k := (buildGraph_node_back ts k t hnode).2
    subst hkt
    refine ⟨hst, ?_⟩
    intro p hp
    have := (List.all_eq_true.mp hall) p hp
    exact (predCompleted_iff _ p).mp this
  · rintro ⟨hst, hpre⟩
    refine ⟨t.id, ?_, ?_⟩
    · exact (buildGraph_keys_mem ts t.id).mpr
        (Or.inl (List.mem_map.mpr ⟨t, ht, rfl⟩))
    · rw [availSelect_eq_some_iff]
      refine ⟨buildGraph_node_fwd ts t nodup ht, ?_, hst⟩
      rw [allPredsCompleted, List.all_eq_true]
      intro p hp
      exact (predCompleted_iff _ p).mpr (hpre p hp)

theorem dangling_no_predecessors (ts : List Task) (d : Nat)
    (hd : d ∉ idsOf ts) : (buildGraph ts).predecessors d = [] := by
  rw [List.eq_nil_iff_forall_not_mem]
  intro p hp
  rcases (mem_predecessors _ d p).mp hp with ⟨_, hedge⟩
  exact hd (buildGraph_edge_target ts p d hedge)

theorem getAvailableTasks_error_of_dangling (ts : List Task) (t : Task)
    (d : Nat) (ht : t ∈ ts) (hdep : d ∈ t.dependencies) (hd : d ∉ idsOf ts) :
    getAvailableTasks (buildGraph ts) = .error () := by
  have hkey : d ∈ (buildGraph ts).keys :=
    (buildGraph_keys_mem ts d).mpr (Or.inr ⟨t, ht, hdep⟩)
  have hpreds : allDepsCompleted (buildGraph ts)
      ((buildGraph ts).predecessors d) = .ok true := by
    rw [dangling_no_predecessors ts d hd]
    rfl
  cases h : getAvailableTasks (buildGraph ts) with
  | error e => cases e; rfl
  | ok res =>
    have hs := availGo_ok_step (buildGraph ts) (buildGraph ts).keys [] res h d
      hkey hpreds
    rw [buildGraph_node_dangling ts d hd] at hs
    simp at hs

/-! ### Invariants of the `findCycles` DFS -/
theorem mem_addSet (l : List Nat) (y x : Nat) :
    x ∈ addSet l y ↔ x ∈ l ∨ x = y := by
  unfold addSet
  by_cases h : y ∈ l
  · simp only [h, if_true]
    constructor
    · exact Or.inl
    · rintro (hx | rfl)
      · exact hx
      · exact h
  · simp [h]

theorem removeSet_addSet (l : List Nat) (x : Nat) (h : x ∉ l) :
    removeSet (addSet l x) x = l := by
  unfold removeSet addSet
  rw [if_neg h, List.filter_append]
  have h1 : l.filter (fun y => y ≠ x) = l := by
    rw [List.filter_eq_self]
    intro a ha
    simp
    exact fun hax => h (hax ▸ ha)
  rw [h1]
  simp

theorem coreRel_id (st : DfsSt) : CoreRel st (st, false) := by
  refine ⟨fun x h => h, ⟨[], by simp⟩, fun _ => rfl, ?_, ?_⟩
  · intro h
    exact absurd h (by simp)
  · intro h
    exact ⟨h, fun _ => rfl⟩

theorem coreRel_comp (st st1 : DfsSt) (out : DfsSt × Bool)
    (h1 : CoreRel st (st1, false)) (h2 : CoreRel st1 out) : CoreRel st out := by
  obtain ⟨m1, ⟨d1, hc1⟩, hf1, _, hs1⟩ := h1
  obtain ⟨m2, ⟨d2, hc2⟩, hf2, ht2, hs2⟩ := h2
  have hcy : st1.cycles = st.cycles := hf1 rfl
  refine ⟨fun x h => m2 x (m1 x h), ⟨d1 ++ d2, by rw [hc2, hc1, List.append_assoc]⟩,
    ?_, ?_, ?_⟩
  · intro h
    rw [hf2 h, hcy]
  · intro h
    rw [hcy] at ht2
    exact ht2 h
  · intro h
    obtain ⟨hsub1, hst1⟩ := hs1 h
    have hstack : st1.stack = st.stack := hst1 rfl
    have hsv1 : st1.stack ⊆ st1.visited := by
      rw [hstack]
      intro x hx
      exact m1 x (h hx)
    obtain ⟨hsub2, hst2⟩ := hs2 hsv1
    exact ⟨hsub2, fun hb => (hst2 hb).trans hstack⟩

theorem foldl_dfsStep_true (rec : Nat → DfsSt → DfsSt × Bool) (path : List Nat)
    (l : List Nat) (st : DfsSt) :
    l.foldl (dfsStep rec path) (st, true) = (st, true) := by
  induction l with
  | nil => rfl
  | cons s rest ih => simpa [dfsStep] using ih

theorem foldl_dfsStep_core (rec : Nat → DfsSt → DfsSt × Bool) (path : List Nat)
    (hrec : ∀ s st, s ∉ st.visited → CoreRel st (rec s st)) (l : List Nat) :
    ∀ st : DfsSt, CoreRel st (l.foldl (dfsStep rec path) (st, false)) := by
  induction l with
  | nil => exact fun st => coreRel_id st
  | cons s rest ih =>
    intro st
    rw [List.foldl_cons]
    by_cases hv : s ∈ st.visited
    · by_cases hk : s ∈ st.stack
      · rw [show dfsStep rec path (st, false) s =
            ({ st with cycles := st.cycles ++ [sliceFrom path s] }, true) from by
          simp [dfsStep, hv, hk]]
        rw [foldl_dfsStep_true]
        refine ⟨fun x h => h, ⟨[sliceFrom path s], rfl⟩, ?_, ?_, ?_⟩
        · intro h
          exact absurd h (by simp)
        · intro _ heq
          have := congrArg List.length heq
          simp at this
        · intro h
          refine ⟨h, ?_⟩
          intro hb
          exact absurd hb (by simp)
      · rw [show dfsStep rec path (st, false) s = (st, false) from by
          simp [dfsStep, hv, hk]]
        exact ih st
    · rw [show dfsStep rec path (st, false) s = rec s st from by
        simp [dfsStep, hv]]
      have h0 : CoreRel st (rec s st) := hrec s st hv
      cases hb : (rec s st).snd with
      | true =>
        rw [show rec s st = ((rec s st).fst, true) from by
          rw [← hb]]
        rw [foldl_dfsStep_true]
        rw [show ((rec s st).fst, true) = rec s st from by rw [← hb]]
        exact h0
      | false =>
        rw [show rec s st = ((rec s st).fst, false) from by
          rw [← hb]]
        exact coreRel_comp st (rec s st).fst _ (by rw [← hb]; exact h0) (ih (rec s st).fst)

theorem dfsNode_core (g : Graph) :
    ∀ (fuel n : Nat) (path0 : List Nat) (st : DfsSt), n ∉ st.visited →
      CoreRel st (dfsNode g fuel n path0 st) := by
  intro fuel
  induction fuel with
  | zero => exact fun n path0 st _ => coreRel_id st
  | succ fuel ih =>
    intro n path0 st hn
    have hdef : dfsNode g (fuel + 1) n path0 st =
        (if ((g.successors n).foldl
            (dfsStep (fun s st' => dfsNode g fuel s (path0 ++ [n]) st') (path0 ++ [n]))
            (({ st with visited := addSet st.visited n,
                        stack := addSet st.stack n } : DfsSt), false)).snd then
          ((g.successors n).foldl
            (dfsStep (fun s st' => dfsNode g fuel s (path0 ++ [n]) st') (path0 ++ [n]))
            (({ st with visited := addSet st.visited n,
                        stack := addSet st.stack n } : DfsSt), false))
        else
          ({ ((g.successors n).foldl
            (dfsStep (fun s st' => dfsNode g fuel s (path0 ++ [n]) st') (path0 ++ [n]))
            (({ st with visited := addSet st.visited n,
                        stack := addSet st.stack n } : DfsSt), false)).fst with
              stack := removeSet ((g.successors n).foldl
                (dfsStep (fun s st' => dfsNode g fuel s (path0 ++ [n]) st') (path0 ++ [n]))
                (({ st with visited := addSet st.visited n,
                            stack := addSet st.stack n } : DfsSt), false)).fst.stack n },
            false)) := rfl
    set st1 : DfsSt := { st with visited := addSet st.visited n,
                                 stack := addSet st.stack n } with hst1
    set res := (g.successors n).foldl
      (dfsStep (fun s st' => dfsNode g fuel s (path0 ++ [n]) st') (path0 ++ [n]))
      (st1, false) with hres
    rw [hdef]
    have hcore : CoreRel st1 res :=
      foldl_dfsStep_core _ _ (fun s st' hs => ih s (path0 ++ [n]) st' hs) _ st1
    obtain ⟨hm, ⟨d, hd⟩, hful, htru, hstk⟩ := hcore
    have hmono : ∀ x ∈ st.visited, x ∈ res.fst.visited := by
      intro x hx
      exact hm x (by rw [hst1]; exact (mem_addSet _ _ _).mpr (Or.inl hx))
    have hcyc1 : st1.cycles = st.cycles := by rw [hst1]
    cases hb : res.snd with
    | true =>
      rw [if_pos rfl]
      refine ⟨hmono, ⟨d, by rw [hd, hcyc1]⟩, ?_, ?_, ?_⟩
      · intro h
        rw [h] at hb
        exact absurd hb (by simp)
      · intro _
        rw [hcyc1] at htru
        exact htru hb
      · intro hsv
        have hsv1 : st1.stack ⊆ st1.visited := by
          rw [hst1]
          intro x hx
          simp only at hx ⊢
          rcases (mem_addSet _ _ _).mp hx with h | rfl
          · exact (mem_addSet _ _ _).mpr (Or.inl (hsv h))
          · exact (mem_addSet _ _ _).mpr (Or.inr rfl)
        obtain ⟨hsub, _⟩ := hstk hsv1
        refine ⟨hsub, ?_⟩
        intro hfalse
        exact absurd hfalse (by simp [hb])
    | false =>
      rw [if_neg (by simp)]
      have hcyc : res.fst.cycles = st.cycles := by rw [hful hb, hcyc1]
      refine ⟨hmono, ⟨[], by rw [hcyc]; simp⟩, fun _ => hcyc, ?_, ?_⟩
      · intro h
        exact absurd h (by simp)
      · intro hsv
        have hsv1 : st1.stack ⊆ st1.visited := by
          rw [hst1]
          intro x hx
          simp only at hx ⊢
          rcases (mem_addSet _ _ _).mp hx with h | rfl
          · exact (mem_addSet _ _ _).mpr (Or.inl (hsv h))
          · exact (mem_addSet _ _ _).mpr (Or.inr rfl)
        obtain ⟨hsub, hpres⟩ := hstk hsv1
        have hrst : res.fst.stack = st1.stack := hpres hb
        have hnstack : n ∉ st.stack := fun h => hn (hsv h)
        constructor
        · intro x hx
          simp only at hx
          have : x ∈ res.fst.stack := List.mem_of_mem_filter hx
          exact hsub this
        · intro _
          show removeSet res.fst.stack n = st.stack
          rw [hrst, hst1]
          exact removeSet_addSet st.stack n hnstack

theorem chain_reach (g : Graph) :
    ∀ (l : List Nat) (n x : Nat), IsChain g (l ++ [n]) → x ∈ l →
      Relation.TransGen (fun a b => (a, b) ∈ g.edges) x n := by
  intro l
  induction l with
  | nil => intro n x _ hx; exact absurd hx (by simp)
  | cons a l ih =>
    intro n x hch hx
    cases l with
    | nil =>
      have hx' : x = a := by simpa using hx
      subst hx'
      have : (x, n) ∈ g.edges := hch.1
      exact Relation.TransGen.single this
    | cons b l' =>
      have hch' : (a, b) ∈ g.edges ∧ IsChain g ((b :: l') ++ [n]) := hch
      rcases List.mem_cons.mp hx with rfl | hx'
      · have hb : Relation.TransGen (fun a b => (a, b) ∈ g.edges) b n :=
          ih n b hch'.2 (List.mem_cons_self _ _)
        exact Relation.TransGen.head hch'.1 hb
      · exact ih n x hch'.2 hx'

theorem chain_snoc (g : Graph) :
    ∀ (l : List Nat) (n s : Nat), IsChain g (l ++ [n]) → (n, s) ∈ g.edges →
      IsChain g ((l ++ [n]) ++ [s]) := by
  intro l
  induction l with
  | nil => intro n s _ he; exact ⟨he, trivial⟩
  | cons a l ih =>
    intro n s hch he
    cases l with
    | nil => exact ⟨hch.1, he, trivial⟩
    | cons b l' =>
      have hch' : (a, b) ∈ g.edges ∧ IsChain g ((b :: l') ++ [n]) := hch
      exact ⟨hch'.1, ih n s hch'.2 he⟩

theorem dfsNode_sound (g : Graph)
    (hAc : ∀ m, ¬ Relation.TransGen (fun a b => (a, b) ∈ g.edges) m m) :
    ∀ (fuel n : Nat) (path0 : List Nat) (st : DfsSt), st.stack = path0 →
      IsChain g (path0 ++ [n]) →
      (dfsNode g fuel n path0 st).snd = false ∧
      (dfsNode g fuel n path0 st).fst.stack = st.stack ∧
      (dfsNode g fuel n path0 st).fst.cycles = st.cycles := by
  intro fuel
  induction fuel with
  | zero => exact fun n path0 st _ _ => ⟨rfl, rfl, rfl⟩
  | succ fuel ih =>
    intro n path0 st hstack hchain
    have hnp : n ∉ path0 := by
      intro hmem
      exact hAc n (chain_reach g path0 n n hchain hmem)
    have hdef : dfsNode g (fuel + 1) n path0 st =
        (if ((g.successors n).foldl
            (dfsStep (fun s st' => dfsNode g fuel s (path0 ++ [n]) st') (path0 ++ [n]))
            (({ st with visited := addSet st.visited n,
                        stack := addSet st.stack n } : DfsSt), false)).snd then
          ((g.successors n).foldl
            (dfsStep (fun s st' => dfsNode g fuel s (path0 ++ [n]) st') (path0 ++ [n]))
            (({ st with visited := addSet st.visited n,
                        stack := addSet st.stack n } : DfsSt), false))
        else
          ({ ((g.successors n).foldl
            (dfsStep (fun s st' => dfsNode g fuel s (path0 ++ [n]) st') (path0 ++ [n]))
            (({ st with visited := addSet st.visited n,
                        stack := addSet st.stack n } : DfsSt), false)).fst with
              stack := removeSet ((g.successors n).foldl
                (dfsStep (fun s st' => dfsNode g fuel s (path0 ++ [n]) st') (path0 ++ [n]))
                (({ st with visited := addSet st.visited n,
                            stack := addSet st.stack n } : DfsSt), false)).fst.stack n },
            false)) := rfl
    set st1 : DfsSt := { st with visited := addSet st.visited n,
                                 stack := addSet st.stack n } with hst1
    set res := (g.successors n).foldl
      (dfsStep (fun s st' => dfsNode g fuel s (path0 ++ [n]) st') (path0 ++ [n]))
      (st1, false) with hres
    have hst1stack : st1.stack = path0 ++ [n] := by
      rw [hst1]
      show addSet st.stack n = path0 ++ [n]
      rw [hstack, addSet, if_neg hnp]
    have hsucc : ∀ s' ∈ g.successors n, (n, s') ∈ g.edges :=
      fun s' hs' => ((mem_successors g n s').mp hs').2
    have hfold : ∀ (l : List Nat), (∀ s' ∈ l, (n, s') ∈ g.edges) →
        ∀ stC : DfsSt, stC.stack = path0 ++ [n] → stC.cycles = st.cycles →
        (l.foldl (dfsStep (fun s st' => dfsNode g fuel s (path0 ++ [n]) st')
            (path0 ++ [n])) (stC, false)).snd = false ∧
        (l.foldl (dfsStep (fun s st' => dfsNode g fuel s (path0 ++ [n]) st')
            (path0 ++ [n])) (stC, false)).fst.stack = path0 ++ [n] ∧
        (l.foldl (dfsStep (fun s st' => dfsNode g fuel s (path0 ++ [n]) st')
            (path0 ++ [n])) (stC, false)).fst.cycles = st.cycles := by
      intro l
      induction l with
      | nil => exact fun _ stC h1 h2 => ⟨rfl, h1, h2⟩
      | cons s' l' ihl =>
        intro hl stC hstC hcyC
        rw [List.foldl_cons]
        by_cases hv : s' ∈ stC.visited
        · by_cases hk : s' ∈ stC.stack
          · exfalso
            rw [hstC] at hk
            rcases (List.mem_append.mp hk) with hmem | hmem
            · have h1 := chain_reach g path0 n s' hchain hmem
              exact hAc s' (Relation.TransGen.tail h1
                (hl s' (List.mem_cons_self _ _)))
            · have hs'n : s' = n := by simpa using hmem
              subst hs'n
              exact hAc s' (Relation.TransGen.single (hl s' (List.mem_cons_self _ _)))
          · rw [show dfsStep (fun s st' => dfsNode g fuel s (path0 ++ [n]) st')
                (path0 ++ [n]) (stC, false) s' = (stC, false) from by
              simp [dfsStep, hv, hk]]
            exact ihl (fun x hx => hl x (List.mem_cons_of_mem _ hx)) stC hstC hcyC
        · rw [show dfsStep (fun s st' => dfsNode g fuel s (path0 ++ [n]) st')
              (path0 ++ [n]) (stC, false) s' =
              dfsNode g fuel s' (path0 ++ [n]) stC from by
            simp [dfsStep, hv]]
          have hchild := ih s' (path0 ++ [n]) stC hstC
            (chain_snoc g path0 n s' hchain (hl s' (List.mem_cons_self _ _)))
          obtain ⟨hb, hs, hc⟩ := hchild
          rw [show dfsNode g fuel s' (path0 ++ [n]) stC =
              ((dfsNode g fuel s' (path0 ++ [n]) stC).fst, false) from by
            rw [← hb]]
          exact ihl (fun x hx => hl x (List.mem_cons_of_mem _ hx)) _
            (hs.trans hstC) (hc.trans hcyC)
    have hmain := hfold (g.successors n) hsucc st1 hst1stack (by rw [hst1])
    obtain ⟨hb, hs, hc⟩ := hmain
    rw [hdef]
    rw [← hres] at hb hs hc
    rw [hb]
    simp only [Bool.false_eq_true, if_false]
    refine ⟨trivial, ?_, hc⟩
    show removeSet res.fst.stack n = st.stack
    rw [hs]
    have hpn : path0 ++ [n] = addSet st.stack n := by
      rw [hstack, addSet, if_neg hnp]
    rw [hpn, removeSet_addSet st.stack n (by rw [hstack]; exact hnp)]

theorem findCycles_eq_nil_of_acyclic (g : Graph)
    (hAc : ∀ m, ¬ Relation.TransGen (fun a b => (a, b) ∈ g.edges) m m) :
    findCycles g = [] := by
  unfold findCycles findCyclesSt
  have inv : ∀ (l : List Nat) (st : DfsSt), st.stack = [] → st.cycles = [] →
      (l.foldl (dfsRoot g) st).stack = [] ∧ (l.foldl (dfsRoot g) st).cycles = [] := by
    intro l
    induction l with
    | nil => exact fun st h1 h2 => ⟨h1, h2⟩
    | cons n l' ihl =>
      intro st h1 h2
      rw [List.foldl_cons]
      unfold dfsRoot
      by_cases hv : n ∈ st.visited
      · rw [if_pos hv]
        exact ihl st h1 h2
      · rw [if_neg hv]
        have hsound := dfsNode_sound g hAc (g.keys.length + 1) n [] st h1 trivial
        exact ihl _ (hsound.2.1.trans h1) (hsound.2.2.trans h2)
  exact (inv g.keys ⟨[], [], []⟩ rfl rfl).2

theorem buildGraph_edge_dep (ts : List Task) (a b : Nat)
    (h : (a, b) ∈ (buildGraph ts).edges) :
    ∃ t ∈ ts, t.id = b ∧ a ∈ t.dependencies := by
  rcases (buildGraph_edges_mem ts (a, b)).mp h with ⟨t, ht, d, hd, he⟩
  injection he with h1 h2
  exact ⟨t, ht, h2.symm, h1 ▸ hd⟩

theorem buildGraph_acyclic (ts : List Task) (h : AcyclicTasks ts) :
    ∀ n, ¬ Relation.TransGen (fun a b => (a, b) ∈ (buildGraph ts).edges) n n := by
  intro n hTG
  have aux : ∀ a b, Relation.TransGen
      (fun a b => (a, b) ∈ (buildGraph ts).edges) a b →
      a ∈ idsOf ts → Relation.TransGen (DepEdge ts) a b ∧ b ∈ idsOf ts := by
    intro a b hab
    induction hab with
    | single hs =>
      intro ha
      exact ⟨Relation.TransGen.single ⟨ha, buildGraph_edge_dep ts _ _ hs⟩,
        buildGraph_edge_target ts _ _ hs⟩
    | tail hTG2 hs ihs =>
      intro ha
      obtain ⟨hdep, hc⟩ := ihs ha
      exact ⟨hdep.tail ⟨hc, buildGraph_edge_dep ts _ _ hs⟩,
        buildGraph_edge_target ts _ _ hs⟩
  have hn : n ∈ idsOf ts := by
    rcases Relation.TransGen.tail'_iff.mp hTG with ⟨c, _, hcb⟩
    exact buildGraph_edge_target ts c n hcb
  exact h n (aux n n hTG hn).1

theorem hasCycles_false_of_acyclic (ts : List Task) (h : AcyclicTasks ts) :
    hasCycles (buildGraph ts) = false := by
  unfold hasCycles
  rw [findCycles_eq_nil_of_acyclic _ (buildGraph_acyclic ts h)]
  rfl

theorem filter_length_mono {l : List Nat} {p q : Nat → Bool}
    (h : ∀ x ∈ l, p x = true → q x = true) :
    (l.filter p).length ≤ (l.filter q).length := by
  induction l with
  | nil => exact Nat.le_refl _
  | cons a l ih =>
    have ih' := ih (fun x hx => h x (List.mem_cons_of_mem _ hx))
    by_cases hp : p a = true
    · rw [List.filter_cons_of_pos hp, List.filter_cons_of_pos (h a (List.mem_cons_self _ _) hp)]
      simpa using ih'
    · rw [List.filter_cons_of_neg (by simpa using hp)]
      by_cases hq : q a = true
      · rw [List.filter_cons_of_pos hq]
        exact Nat.le_succ_of_le ih'
      · rw [List.filter_cons_of_neg (by simpa using hq)]
        exact ih'

theorem filter_length_strict {l : List Nat} {p q : Nat → Bool}
    (h : ∀ x ∈ l, p x = true → q x = true) (x0 : Nat) (hx0 : x0 ∈ l)
    (hp : p x0 = false) (hq : q x0 = true) :
    (l.filter p).length < (l.filter q).length := by
  induction l with
  | nil => exact absurd hx0 (by simp)
  | cons a l ih =>
    by_cases hax : a = x0
    · subst hax
      rw [List.filter_cons_of_neg (by simp [hp]), List.filter_cons_of_pos hq]
      exact Nat.lt_succ_of_le
        (filter_length_mono (fun x hx => h x (List.mem_cons_of_mem _ hx)))
    · have hx0' : x0 ∈ l := by
        rcases List.mem_cons.mp hx0 with h1 | h1
        · exact absurd h1.symm hax
        · exact h1
      have ih' := ih (fun x hx => h x (List.mem_cons_of_mem _ hx)) hx0'
      by_cases hpa : p a = true
      · rw [List.filter_cons_of_pos hpa,
          List.filter_cons_of_pos (h a (List.mem_cons_self _ _) hpa)]
        simpa using ih'
      · rw [List.filter_cons_of_neg (by simpa using hpa)]
        by_cases hqa : q a = true
        · rw [List.filter_cons_of_pos hqa]
          exact Nat.lt_succ_of_lt ih'
        · rw [List.filter_cons_of_neg (by simpa using hqa)]
          exact ih'

theorem unvis_le_of_subset (g : Graph) {v v' : List Nat}
    (h : ∀ x ∈ v, x ∈ v') : unvis g v' ≤ unvis g v := by
  apply filter_length_mono
  intro x _ hx
  simp only [decide_eq_true_eq] at hx ⊢
  intro hv
  exact hx (h x hv)

theorem unvis_lt_of_new (g : Graph) {v v' : List Nat} (n : Nat)
    (hsub : ∀ x ∈ v, x ∈ v') (hk : n ∈ g.keys) (hv : n ∉ v) (hv' : n ∈ v') :
    unvis g v' < unvis g v := by
  apply filter_length_strict (q := fun k => decide (k ∉ v))
  · intro x _ hx
    simp only [decide_eq_true_eq] at hx ⊢
    intro hmem
    exact hx (hsub x hmem)
  · exact hk
  · simp [hv']
  · simp [hv]

theorem unvis_pos_fuel {g : Graph} {v : List Nat} {fuel : Nat}
    (h : unvis g v < fuel) : 0 < fuel :=
  Nat.lt_of_le_of_lt (Nat.zero_le _) h

/-- The unfolding of one fuelled DFS step. -/
theorem dfsNode_succ_eq (g : Graph) (fuel n : Nat) (path0 : List Nat) (st : DfsSt) :
    dfsNode g (fuel + 1) n path0 st =
      (if ((g.successors n).foldl
          (dfsStep (fun s st' => dfsNode g fuel s (path0 ++ [n]) st') (path0 ++ [n]))
          (({ st with visited := addSet st.visited n,
                      stack := addSet st.stack n } : DfsSt), false)).snd then
        ((g.successors n).foldl
          (dfsStep (fun s st' => dfsNode g fuel s (path0 ++ [n]) st') (path0 ++ [n]))
          (({ st with visited := addSet st.visited n,
                      stack := addSet st.stack n } : DfsSt), false))
      else
        ({ ((g.successors n).foldl
          (dfsStep (fun s st' => dfsNode g fuel s (path0 ++ [n]) st') (path0 ++ [n]))
          (({ st with visited := addSet st.visited n,
                      stack := addSet st.stack n } : DfsSt), false)).fst with
            stack := removeSet ((g.successors n).foldl
              (dfsStep (fun s st' => dfsNode g fuel s (path0 ++ [n]) st') (path0 ++ [n]))
              (({ st with visited := addSet st.visited n,
                          stack := addSet st.stack n } : DfsSt), false)).fst.stack n },
          false)) := rfl

theorem dfsNode_visits (g : Graph) (fuel n : Nat) (path0 : List Nat) (st : DfsSt) :
    n ∈ (dfsNode g (fuel + 1) n path0 st).fst.visited := by
  rw [dfsNode_succ_eq]
  set st1 : DfsSt := { st with visited := addSet st.visited n,
                               stack := addSet st.stack n } with hst1
  set res := (g.successors n).foldl
    (dfsStep (fun s st' => dfsNode g fuel s (path0 ++ [n]) st') (path0 ++ [n]))
    (st1, false) with hres
  have hcore : CoreRel st1 res :=
    foldl_dfsStep_core _ _ (fun s st' hs => dfsNode_core g fuel s (path0 ++ [n]) st' hs) _ st1
  have hn1 : n ∈ st1.visited := by
    rw [hst1]
    exact (mem_addSet _ _ _).mpr (Or.inr rfl)
  have hnres : n ∈ res.fst.visited := hcore.1 n hn1
  cases hb : res.snd with
  | true => rw [if_pos rfl]; exact hnres
  | false => rw [if_neg (by simp)]; exact hnres

theorem dfsStep_skip {rec : Nat → DfsSt → DfsSt × Bool} {path : List Nat}
    {stC : DfsSt} {s : Nat} (hv : s ∈ stC.visited) (hk : s ∉ stC.stack) :
    dfsStep rec path (stC, false) s = (stC, false) := by
  simp [dfsStep, hv, hk]

theorem dfsStep_hit {rec : Nat → DfsSt → DfsSt × Bool} {path : List Nat}
    {stC : DfsSt} {s : Nat} (hv : s ∈ stC.visited) (hk : s ∈ stC.stack) :
    dfsStep rec path (stC, false) s =
      ({ stC with cycles := stC.cycles ++ [sliceFrom path s] }, true) := by
  simp [dfsStep, hv, hk]

theorem dfsStep_rec {rec : Nat → DfsSt → DfsSt × Bool} {path : List Nat}
    {stC : DfsSt} {s : Nat} (hv : s ∉ stC.visited) :
    dfsStep rec path (stC, false) s = rec s stC := by
  simp [dfsStep, hv]

theorem pair_eq_of_snd {p : DfsSt × Bool} {b : Bool} (hb : p.snd = b) :
    p = (p.fst, b) := by
  rw [← hb]

theorem dfsNode_stack_blocks (g : Graph) (A B : Nat)
    (hedge : (B, A) ∈ g.edges) (hAkey : A ∈ g.keys) :
    ∀ (fuel n : Nat) (path0 : List Nat) (st : DfsSt),
      (dfsNode g fuel n path0 st).snd = false →
      n ∉ st.visited → st.stack ⊆ st.visited → A ∈ st.stack → B ∉ st.visited →
      B ∉ (dfsNode g fuel n path0 st).fst.visited := by
  intro fuel
  induction fuel with
  | zero => exact fun n path0 st _ _ _ _ hB => hB
  | succ fuel ih =>
    intro n path0 st hfalse hn hsv hA hB
    rw [dfsNode_succ_eq] at hfalse ⊢
    set st1 : DfsSt := { st with visited := addSet st.visited n,
                                 stack := addSet st.stack n } with hst1
    set res := (g.successors n).foldl
      (dfsStep (fun s st' => dfsNode g fuel s (path0 ++ [n]) st') (path0 ++ [n]))
      (st1, false) with hres
    have hresF : res.snd = false := by
      by_cases hb : res.snd = true
      · rw [if_pos hb] at hfalse
        rw [hb] at hfalse
        exact absurd hfalse (by simp)
      · simpa using hb
    rw [if_neg (by simp [hresF])] at hfalse ⊢
    show B ∉ res.fst.visited
    have hA1 : A ∈ st1.stack := by
      rw [hst1]
      exact (mem_addSet _ _ _).mpr (Or.inl hA)
    have hsv1 : st1.stack ⊆ st1.visited := by
      rw [hst1]
      intro x hx
      rcases (mem_addSet _ _ _).mp hx with h | rfl
      · exact (mem_addSet _ _ _).mpr (Or.inl (hsv h))
      · exact (mem_addSet _ _ _).mpr (Or.inr rfl)
    by_cases hnB : n = B
    · exfalso
      subst hnB
      have hhit : ∀ (l : List Nat), A ∈ l → ∀ stC : DfsSt,
          A ∈ stC.stack → stC.stack ⊆ stC.visited →
          (l.foldl (dfsStep (fun s st' => dfsNode g fuel s (path0 ++ [n]) st')
            (path0 ++ [n])) (stC, false)).snd = true := by
        intro l
        induction l with
        | nil => exact fun hAl => absurd hAl (by simp)
        | cons s l' ihl =>
          intro hAl stC hAs hsub
          rw [List.foldl_cons]
          by_cases hsA : s = A
          · subst hsA
            rw [dfsStep_hit (hsub hAs) hAs, foldl_dfsStep_true]
          · have hAl' : A ∈ l' := by
              rcases List.mem_cons.mp hAl with h | h
              · exact absurd h.symm hsA
              · exact h
            by_cases hv : s ∈ stC.visited
            · by_cases hk : s ∈ stC.stack
              · rw [dfsStep_hit hv hk, foldl_dfsStep_true]
              · rw [dfsStep_skip hv hk]
                exact ihl hAl' stC hAs hsub
            · rw [dfsStep_rec hv]
              cases hb : (dfsNode g fuel s (path0 ++ [n]) stC).snd with
              | true =>
                rw [pair_eq_of_snd hb, foldl_dfsStep_true]
              | false =>
                have hcore := dfsNode_core g fuel s (path0 ++ [n]) stC hv
                obtain ⟨-, -, -, -, hstk⟩ := hcore
                obtain ⟨hsub', hpres⟩ := hstk hsub
                rw [pair_eq_of_snd hb]
                exact ihl hAl' _ (by rw [hpres hb]; exact hAs) hsub'
      have hAsucc : A ∈ g.successors n := (mem_successors g n A).mpr ⟨hAkey, hedge⟩
      have hT := hhit (g.successors n) hAsucc st1 hA1 hsv1
      rw [← hres] at hT
      rw [hT] at hresF
      exact absurd hresF (by simp)
    · have hB1 : B ∉ st1.visited := by
        rw [hst1]
        intro hx
        rcases (mem_addSet _ _ _).mp hx with h | h
        · exact hB h
        · exact hnB h.symm
      have hfoldpres : ∀ (l : List Nat), ∀ stC : DfsSt,
          (l.foldl (dfsStep (fun s st' => dfsNode g fuel s (path0 ++ [n]) st')
            (path0 ++ [n])) (stC, false)).snd = false →
          B ∉ stC.visited → A ∈ stC.stack → stC.stack ⊆ stC.visited →
          B ∉ (l.foldl (dfsStep (fun s st' => dfsNode g fuel s (path0 ++ [n]) st')
            (path0 ++ [n])) (stC, false)).fst.visited := by
        intro l
        induction l with
        | nil => exact fun stC _ hB' _ _ => hB'
        | cons s l' ihl =>
          intro stC hf hB' hA' hsub
          rw [List.foldl_cons] at hf ⊢
          by_cases hv : s ∈ stC.visited
          · by_cases hk : s ∈ stC.stack
            · rw [dfsStep_hit hv hk, foldl_dfsStep_true] at hf
              exact absurd hf (by simp)
            · rw [dfsStep_skip hv hk] at hf ⊢
              exact ihl stC hf hB' hA' hsub
          · rw [dfsStep_rec hv] at hf ⊢
            cases hb : (dfsNode g fuel s (path0 ++ [n]) stC).snd with
            | true =>
              rw [pair_eq_of_snd hb, foldl_dfsStep_true] at hf
              exact absurd hf (by simp)
            | false =>
              have hBchild : B ∉ (dfsNode g fuel s (path0 ++ [n]) stC).fst.visited :=
                ih s (path0 ++ [n]) stC hb hv hsub hA' hB'
              have hcore := dfsNode_core g fuel s (path0 ++ [n]) stC hv
              obtain ⟨-, -, -, -, hstk⟩ := hcore
              obtain ⟨hsub', hpres⟩ := hstk hsub
              rw [pair_eq_of_snd hb] at hf ⊢
              exact ihl _ hf hBchild (by rw [hpres hb]; exact hA') hsub'
      have := hfoldpres (g.successors n) st1 (by rw [← hres]; exact hresF) hB1 hA1 hsv1
      rw [← hres] at this
      exact this

theorem dfs_fold_hits (g : Graph) (X Y : Nat) (hedge : (Y, X) ∈ g.edges)
    (hXkey : X ∈ g.keys) (fuel : Nat) (path : List Nat) :
    ∀ (l : List Nat), Y ∈ l → ∀ stC : DfsSt, Y ∉ stC.visited → X ∈ stC.stack →
      stC.stack ⊆ stC.visited → unvis g stC.visited < fuel →
      (l.foldl (dfsStep (fun s st' => dfsNode g fuel s path st') path)
        (stC, false)).snd = true := by
  intro l
  induction l with
  | nil => exact fun hY => absurd hY (by simp)
  | cons s l' ihl =>
    intro hY stC hYv hXs hsub hfuel
    rw [List.foldl_cons]
    by_cases hsY : s = Y
    · subst hsY
      rw [dfsStep_rec hYv]
      cases hb : (dfsNode g fuel s path stC).snd with
      | true => rw [pair_eq_of_snd hb, foldl_dfsStep_true]
      | false =>
        exfalso
        obtain ⟨f, rfl⟩ : ∃ f, fuel = f + 1 :=
          ⟨fuel - 1, by omega⟩
        have hblock := dfsNode_stack_blocks g X s hedge hXkey (f + 1) s path stC
          hb hYv hsub hXs hYv
        exact hblock (dfsNode_visits g f s path stC)
    · have hY' : Y ∈ l' := by
        rcases List.mem_cons.mp hY with h | h
        · exact absurd h.symm hsY
        · exact h
      by_cases hv : s ∈ stC.visited
      · by_cases hk : s ∈ stC.stack
        · rw [dfsStep_hit hv hk, foldl_dfsStep_true]
        · rw [dfsStep_skip hv hk]
          exact ihl hY' stC hYv hXs hsub hfuel
      · rw [dfsStep_rec hv]
        cases hb : (dfsNode g fuel s path stC).snd with
        | true => rw [pair_eq_of_snd hb, foldl_dfsStep_true]
        | false =>
          have hYchild : Y ∉ (dfsNode g fuel s path stC).fst.visited :=
            dfsNode_stack_blocks g X Y hedge hXkey fuel s path stC hb hv hsub hXs hYv
          have hcore := dfsNode_core g fuel s path stC hv
          obtain ⟨hmono, -, -, -, hstk⟩ := hcore
          obtain ⟨hsub', hpres⟩ := hstk hsub
          rw [pair_eq_of_snd hb]
          refine ihl hY' _ hYchild (by rw [hpres hb]; exact hXs) hsub' ?_
          exact Nat.lt_of_le_of_lt (unvis_le_of_subset g hmono) hfuel

theorem dfsNode_pair_unvisited (g : Graph) (A B : Nat) (hne : A ≠ B)
    (hAB : (A, B) ∈ g.edges) (hBA : (B, A) ∈ g.edges)
    (hAk : A ∈ g.keys) (hBk : B ∈ g.keys) :
    ∀ (fuel n : Nat) (path0 : List Nat) (st : DfsSt),
      (dfsNode g fuel n path0 st).snd = false →
      unvis g st.visited < fuel → n ∈ g.keys → n ∉ st.visited →
      st.stack ⊆ st.visited → A ∉ st.visited → B ∉ st.visited →
      A ∉ (dfsNode g fuel n path0 st).fst.visited ∧
        B ∉ (dfsNode g fuel n path0 st).fst.visited := by
  intro fuel
  induction fuel with
  | zero => exact fun n path0 st _ hf => absurd hf (by omega)
  | succ fuel ih =>
    intro n path0 st hfalse hfuel hnk hn hsv hA hB
    rw [dfsNode_succ_eq] at hfalse ⊢
    set st1 : DfsSt := { st with visited := addSet st.visited n,
                                 stack := addSet st.stack n } with hst1
    set res := (g.successors n).foldl
      (dfsStep (fun s st' => dfsNode g fuel s (path0 ++ [n]) st') (path0 ++ [n]))
      (st1, false) with hres
    have hresF : res.snd = false := by
      by_cases hb : res.snd = true
      · rw [if_pos hb] at hfalse
        rw [hb] at hfalse
        exact absurd hfalse (by simp)
      · simpa using hb
    rw [if_neg (by simp [hresF])] at hfalse ⊢
    show A ∉ res.fst.visited ∧ B ∉ res.fst.visited
    have hsv1 : st1.stack ⊆ st1.visited := by
      rw [hst1]
      intro x hx
      rcases (mem_addSet _ _ _).mp hx with h | rfl
      · exact (mem_addSet _ _ _).mpr (Or.inl (hsv h))
      · exact (mem_addSet _ _ _).mpr (Or.inr rfl)
    have hmono1 : ∀ x ∈ st.visited, x ∈ st1.visited := by
      rw [hst1]
      intro x hx
      exact (mem_addSet _ _ _).mpr (Or.inl hx)
    have hunvis1 : unvis g st1.visited < fuel := by
      have hlt : unvis g st1.visited < unvis g st.visited := by
        apply unvis_lt_of_new g n hmono1 hnk hn
        rw [hst1]
        exact (mem_addSet _ _ _).mpr (Or.inr rfl)
      omega
    by_cases hnA : n = A
    · exfalso
      subst hnA
      have hBsucc : B ∈ g.successors n := (mem_successors g n B).mpr ⟨hBk, hAB⟩
      have hB1 : B ∉ st1.visited := by
        rw [hst1]
        intro hx
        rcases (mem_addSet _ _ _).mp hx with h | h
        · exact hB h
        · exact hne h.symm
      have hn1 : n ∈ st1.stack := by
        rw [hst1]
        exact (mem_addSet _ _ _).mpr (Or.inr rfl)
      have hT := dfs_fold_hits g n B hBA hAk fuel (path0 ++ [n])
        (g.successors n) hBsucc st1 hB1 hn1 hsv1 hunvis1
      rw [← hres] at hT
      rw [hT] at hresF
      exact absurd hresF (by simp)
    · by_cases hnB : n = B
      · exfalso
        subst hnB
        have hAsucc : A ∈ g.successors n := (mem_successors g n A).mpr ⟨hAk, hBA⟩
        have hA1 : A ∉ st1.visited := by
          rw [hst1]
          intro hx
          rcases (mem_addSet _ _ _).mp hx with h | h
          · exact hA h
          · exact hne h
        have hn1 : n ∈ st1.stack := by
          rw [hst1]
          exact (mem_addSet _ _ _).mpr (Or.inr rfl)
        have hT := dfs_fold_hits g n A hAB hBk fuel (path0 ++ [n])
          (g.successors n) hAsucc st1 hA1 hn1 hsv1 hunvis1
        rw [← hres] at hT
        rw [hT] at hresF
        exact absurd hresF (by simp)
      · have hA1 : A ∉ st1.visited := by
          rw [hst1]
          intro hx
          rcases (mem_addSet _ _ _).mp hx with h | h
          · exact hA h
          · exact hnA h.symm
        have hB1 : B ∉ st1.visited := by
          rw [hst1]
          intro hx
          rcases (mem_addSet _ _ _).mp hx with h | h
          · exact hB h
          · exact hnB h.symm
        have hkeep : ∀ (l : List Nat), (∀ x ∈ l, x ∈ g.keys) → ∀ stC : DfsSt,
            (l.foldl (dfsStep (fun s st' => dfsNode g fuel s (path0 ++ [n]) st')
              (path0 ++ [n])) (stC, false)).snd = false →
            A ∉ stC.visited → B ∉ stC.visited → stC.stack ⊆ stC.visited →
            unvis g stC.visited < fuel →
            A ∉ (l.foldl (dfsStep (fun s st' => dfsNode g fuel s (path0 ++ [n]) st')
              (path0 ++ [n])) (stC, false)).fst.visited ∧
            B ∉ (l.foldl (dfsStep (fun s st' => dfsNode g fuel s (path0 ++ [n]) st')
              (path0 ++ [n])) (stC, false)).fst.visited := by
          intro l
          induction l with
          | nil => exact fun _ stC _ hA' hB' _ _ => ⟨hA', hB'⟩
          | cons s l' ihl =>
            intro hl stC hf hA' hB' hsub hfl
            rw [List.foldl_cons] at hf ⊢
            by_cases hv : s ∈ stC.visited
            · by_cases hk : s ∈ stC.stack
              · rw [dfsStep_hit hv hk, foldl_dfsStep_true] at hf
                exact absurd hf (by simp)
              · rw [dfsStep_skip hv hk] at hf ⊢
                exact ihl (fun x hx => hl x (List.mem_cons_of_mem _ hx)) stC hf hA' hB' hsub hfl
            · rw [dfsStep_rec hv] at hf ⊢
              cases hb : (dfsNode g fuel s (path0 ++ [n]) stC).snd with
              | true =>
                rw [pair_eq_of_snd hb, foldl_dfsStep_true] at hf
                exact absurd hf (by simp)
              | false =>
                have hpair := ih s (path0 ++ [n]) stC hb hfl
                  (hl s (List.mem_cons_self _ _)) hv hsub hA' hB'
                have hcore := dfsNode_core g fuel s (path0 ++ [n]) stC hv
                obtain ⟨hmono, -, -, -, hstk⟩ := hcore
                obtain ⟨hsub', hpres⟩ := hstk hsub
                rw [pair_eq_of_snd hb] at hf ⊢
                refine ihl (fun x hx => hl x (List.mem_cons_of_mem _ hx)) _ hf
                  hpair.1 hpair.2 hsub' ?_
                exact Nat.lt_of_le_of_lt (unvis_le_of_subset g hmono) hfl
        have hsucck : ∀ x ∈ g.successors n, x ∈ g.keys :=
          fun x hx => ((mem_successors g n x).mp hx).1
        have := hkeep (g.successors n) hsucck st1 (by rw [← hres]; exact hresF)
          hA1 hB1 hsv1 hunvis1
        rw [← hres] at this
        exact this

theorem dfsRoot_eq (g : Graph) (st : DfsSt) (n : Nat) :
    dfsRoot g st n =
      if n ∈ st.visited then st else (dfsNode g (g.keys.length + 1) n [] st).fst := rfl

theorem outer_cycles_append (g : Graph) :
    ∀ (l : List Nat) (st : DfsSt), ∃ d,
      (l.foldl (dfsRoot g) st).cycles = st.cycles ++ d := by
  intro l
  induction l with
  | nil => exact fun st => ⟨[], by simp⟩
  | cons n l' ihl =>
    intro st
    rw [List.foldl_cons, dfsRoot_eq]
    by_cases hv : n ∈ st.visited
    · rw [if_pos hv]
      exact ihl st
    · rw [if_neg hv]
      obtain ⟨-, ⟨d1, hd1⟩, -, -, -⟩ :=
        dfsNode_core g (g.keys.length + 1) n [] st hv
      obtain ⟨d2, hd2⟩ := ihl (dfsNode g (g.keys.length + 1) n [] st).fst
      exact ⟨d1 ++ d2, by rw [hd2, hd1, List.append_assoc]⟩

theorem findCycles_ne_nil_of_mutual (g : Graph) (A B : Nat) (hne : A ≠ B)
    (hAB : (A, B) ∈ g.edges) (hBA : (B, A) ∈ g.edges)
    (hAk : A ∈ g.keys) (hBk : B ∈ g.keys) :
    findCycles g ≠ [] := by
  have houter : ∀ (l : List Nat), (∀ x ∈ l, x ∈ g.keys) → A ∈ l →
      ∀ st : DfsSt, st.cycles = [] → st.stack = [] →
      A ∉ st.visited → B ∉ st.visited →
      (l.foldl (dfsRoot g) st).cycles ≠ [] := by
    intro l
    induction l with
    | nil => exact fun _ hA => absurd hA (by simp)
    | cons n l' ihl =>
      intro hl hA st hcy hstk hAv hBv
      rw [List.foldl_cons, dfsRoot_eq]
      by_cases hv : n ∈ st.visited
      · rw [if_pos hv]
        have hA' : A ∈ l' := by
          rcases List.mem_cons.mp hA with rfl | h
          · exact absurd hv hAv
          · exact h
        exact ihl (fun x hx => hl x (List.mem_cons_of_mem _ hx)) hA' st hcy hstk hAv hBv
      · rw [if_neg hv]
        cases hb : (dfsNode g (g.keys.length + 1) n [] st).snd with
        | true =>
          obtain ⟨-, -, -, htru, -⟩ := dfsNode_core g (g.keys.length + 1) n [] st hv
          have hne' : (dfsNode g (g.keys.length + 1) n [] st).fst.cycles ≠ [] := by
            rw [← hcy]
            exact htru hb
          obtain ⟨d, hd⟩ := outer_cycles_append g l'
            (dfsNode g (g.keys.length + 1) n [] st).fst
          rw [hd]
          intro hnil
          rcases List.append_eq_nil.mp hnil with ⟨h1, _⟩
          exact hne' h1
        | false =>
          have hsubtriv : st.stack ⊆ st.visited := by
            rw [hstk]
            exact fun x hx => absurd hx (by simp)
          have hfl : unvis g st.visited < g.keys.length + 1 :=
            Nat.lt_succ_of_le (List.length_filter_le _ _)
          have hpair := dfsNode_pair_unvisited g A B hne hAB hBA hAk hBk
            (g.keys.length + 1) n [] st hb hfl (hl n (List.mem_cons_self _ _))
            hv hsubtriv hAv hBv
          by_cases hnA : n = A
          · exfalso
            subst hnA
            exact hpair.1 (dfsNode_visits g (g.keys.length) n [] st)
          · have hA' : A ∈ l' := by
              rcases List.mem_cons.mp hA with h | h
              · exact absurd h.symm hnA
              · exact h
            obtain ⟨-, -, hful, -, hstkc⟩ :=
              dfsNode_core g (g.keys.length + 1) n [] st hv
            obtain ⟨-, hpres⟩ := hstkc hsubtriv
            exact ihl (fun x hx => hl x (List.mem_cons_of_mem _ hx)) hA' _
              (by rw [hful hb, hcy]) (by rw [hpres hb, hstk]) hpair.1 hpair.2
  unfold findCycles findCyclesSt
  exact houter g.keys (fun x hx => hx) hAk ⟨[], [], []⟩ rfl rfl
    (by simp) (by simp)

theorem findCycles_two_cycle (ts : List Task) (tA tB : Task)
    (hAt : tA ∈ ts) (hBt : tB ∈ ts) (hid : tA.id ≠ tB.id)
    (hd1 : tB.id ∈ tA.dependencies) (hd2 : tA.id ∈ tB.dependencies) :
    findCycles (buildGraph ts) ≠ [] ∧ hasCycles (buildGraph ts) = true := by
  have hAB : (tA.id, tB.id) ∈ (buildGraph ts).edges :=
    (buildGraph_edges_mem ts _).mpr ⟨tB, hBt, tA.id, hd2, rfl⟩
  have hBA : (tB.id, tA.id) ∈ (buildGraph ts).edges :=
    (buildGraph_edges_mem ts _).mpr ⟨tA, hAt, tB.id, hd1, rfl⟩
  have hAk : tA.id ∈ (buildGraph ts).keys :=
    (buildGraph_keys_mem ts _).mpr (Or.inl (List.mem_map.mpr ⟨tA, hAt, rfl⟩))
  have hBk : tB.id ∈ (buildGraph ts).keys :=
    (buildGraph_keys_mem ts _).mpr (Or.inl (List.mem_map.mpr ⟨tB, hBt, rfl⟩))
  have hne := findCycles_ne_nil_of_mutual (buildGraph ts) tA.id tB.id hid
    hAB hBA hAk hBk
  refine ⟨hne, ?_⟩
  unfold hasCycles
  simp only [decide_eq_true_eq]
  exact List.length_pos.mpr hne

theorem missingGo_ok (g : Graph) (l : List Nat) (acc : List (Nat × Nat))
    (h : ∀ k ∈ l, (g.node k).isSome) :
    ∃ m, missingGo g l acc = .ok m := by
  induction l generalizing acc with
  | nil => exact ⟨acc, rfl⟩
  | cons k rest ih =>
    have hk := h k (List.mem_cons_self _ _)
    cases hu : g.node k with
    | none => rw [hu] at hk; simp at hk
    | some t =>
      simp only [missingGo, hu]
      exact ih _ (fun q hq => h q (List.mem_cons_of_mem _ hq))

theorem validateDependencies_ok_of_closed (ts : List Task)
    (closed : DepsClosed ts) :
    ∃ r, validateDependencies (buildGraph ts) = .ok r ∧
      r.hasCycles = hasCycles (buildGraph ts) := by
  obtain ⟨m, hm⟩ := missingGo_ok (buildGraph ts) (buildGraph ts).keys []
    (fun k hk => buildGraph_keys_isSome ts closed k hk)
  refine ⟨{ hasCycles := hasCycles (buildGraph ts)
            unreachableTasks := findUnreachableTasks (buildGraph ts)
            missingDependencies := m
            valid := !(hasCycles (buildGraph ts)) &&
              (findUnreachableTasks (buildGraph ts)).isEmpty && m.isEmpty }, ?_, rfl⟩
  unfold validateDependencies findMissingDependencies
  rw [hm]

/-- The task set of an acyclic snapshot never trips the cycle check, and
when it moreover has no dangling references the full validation report is
produced with `hasCycles = false`. -/
theorem validate_acyclic (ts : List Task) (hAc : AcyclicTasks ts) :
    hasCycles (buildGraph ts) = false ∧
      (DepsClosed ts → ∃ r, validateDependencies (buildGraph ts) = .ok r ∧
        r.hasCycles = false) := by
  have h1 := hasCycles_false_of_acyclic ts hAc
  refine ⟨h1, ?_⟩
  intro closed
  obtain ⟨r, hr, hrc⟩ := validateDependencies_ok_of_closed ts closed
  exact ⟨r, hr, hrc.trans h1⟩

theorem acyclicTasks_of_lt (ts : List Task)
    (h : ∀ a b, DepEdge ts a b → a < b) : AcyclicTasks ts := by
  intro n hTG
  have haux : ∀ a b, Relation.TransGen (DepEdge ts) a b → a < b := by
    intro a b hab
    induction hab with
    | single hs => exact h _ _ hs
    | tail _ hs ihs => exact Nat.lt_trans ihs (h _ _ hs)
  exact Nat.lt_irrefl n (haux n n hTG)

/-! ### Claim theorems: the dependency graph engine -/
/-- C1 (code bug): on the snapshot `[{id: 1, dependencies: [99]}]` with no
task 99, `validateDependencies()` does not return a report containing
`{taskId: 1, missingDependency: 99}` — it throws a `TypeError` instead,
because `buildGraph()` auto-created a payload-less node `99` (so
`hasNode('99')` is even true and the missing-dependency check could never
fire) and `findMissingDependencies` reads `.dependencies` of that
`undefined` payload. -/
theorem C1_validate_throws_on_dangling :
    validateDependencies (buildGraph [c1task]) = .error () ∧
      (buildGraph [c1task]).hasNode 99 = true :=
  ⟨rfl, rfl⟩

/-- C2 counterexample: on the task set `[c2x1, c2x2]`, task 1 has no
predecessors and status `pending`, yet it appears in no result of
`getAvailableTasks()` — the call throws (the dangling dependency 99 of
task 2 auto-created a payload-less node whose status read raises a
`TypeError`), refuting the claim for arbitrary task sets. -/
theorem C2_counterexample :
    getAvailableTasks (buildGraph [c2x1, c2x2]) = .error () ∧
      ¬ ∃ l, getAvailableTasks (buildGraph [c2x1, c2x2]) = .ok l ∧ c2x1 ∈ l := by
  refine ⟨rfl, ?_⟩
  rintro ⟨l, hl, -⟩
  rw [show getAvailableTasks (buildGraph [c2x1, c2x2]) = .error () from rfl] at hl
  simp at hl

/-- C2 (amended): for every task set with unique ids in which every listed
dependency id has a corresponding task, `getAvailableTasks()` after
`buildGraph()` returns normally, and a task appears in the result iff its
status is not `completed` and every direct predecessor in the graph
carries a payload with status `completed`; in particular every task with
no predecessors and status other than `completed` appears. -/
theorem C2_availability_iff (ts : List Task) (nodup : (idsOf ts).Nodup)
    (closed : DepsClosed ts) :
    ∃ l, getAvailableTasks (buildGraph ts) = .ok l ∧
      (∀ t ∈ ts, (t ∈ l ↔ ¬ t.status = "completed" ∧
        ∀ p ∈ (buildGraph ts).predecessors t.id,
          ∃ u, (buildGraph ts).node p = some u ∧ u.status = "completed")) ∧
      (∀ t ∈ ts, (buildGraph ts).predecessors t.id = [] →
        ¬ t.status = "completed" → t ∈ l) := by
  obtain ⟨l, hl, hiff⟩ := getAvailableTasks_mem_characterisation ts nodup closed
  refine ⟨l, hl, hiff, ?_⟩
  intro t ht hpred hst
  rw [hiff t ht]
  refine ⟨hst, ?_⟩
  intro p hp
  rw [hpred] at hp
  exact absurd hp (by simp)

/-- C2 witness: the amended claim at the concrete two-task input. -/
theorem C2_witness :
    ∃ l, getAvailableTasks (buildGraph [c2w1, c2w2]) = .ok l ∧
      (∀ t ∈ [c2w1, c2w2], (t ∈ l ↔ ¬ t.status = "completed" ∧
        ∀ p ∈ (buildGraph [c2w1, c2w2]).predecessors t.id,
          ∃ u, (buildGraph [c2w1, c2w2]).node p = some u ∧
            u.status = "completed")) ∧
      (∀ t ∈ [c2w1, c2w2], (buildGraph [c2w1, c2w2]).predecessors t.id = [] →
        ¬ t.status = "completed" → t ∈ l) :=
  C2_availability_iff [c2w1, c2w2] (by decide) (by decide)

/-- C3 counterexample: the three-task set `[c3t1, c3t2, c3t3]` contains the
two-task cycle 2 ↔ 3, yet `findCycles()` returns `[[1, 2], [3]]` — the
early return of the DFS skips the recursion-stack cleanup, so the stale
stack produces the bogus singleton `[3]` and no reported cycle contains
both 2 and 3. -/
theorem C3_counterexample :
    findCycles (buildGraph [c3t1, c3t2, c3t3]) = [[1, 2], [3]] ∧
      ∀ c ∈ findCycles (buildGraph [c3t1, c3t2, c3t3]),
        ¬ ((2 : Nat) ∈ c ∧ (3 : Nat) ∈ c) := by
  constructor
  · rfl
  · intro c hc
    rw [show findCycles (buildGraph [c3t1, c3t2, c3t3]) = [[1, 2], [3]] from rfl] at hc
    simp only [List.mem_cons, List.not_mem_nil, or_false] at hc
    rcases hc with rfl | rfl
    · decide
    · decide

/-- C3 (amended): for every task set containing a two-task cycle A→B→A
(each of the two tasks lists the other as a dependency, with distinct
ids), after `buildGraph()` `findCycles()` returns a non-empty list and
`hasCycles()` returns true.  (The claim that some reported cycle contains
both A and B is refuted by `C3_counterexample`.) -/
theorem C3_two_cycle_detected (ts : List Task) (tA tB : Task)
    (hAt : tA ∈ ts) (hBt : tB ∈ ts) (hid : tA.id ≠ tB.id)
    (hd1 : tB.id ∈ tA.dependencies) (hd2 : tA.id ∈ tB.dependencies) :
    findCycles (buildGraph ts) ≠ [] ∧ hasCycles (buildGraph ts) = true :=
  findCycles_two_cycle ts tA tB hAt hBt hid hd1 hd2

/-- C3 witness: the amended claim at a concrete mutual pair. -/
theorem C3_witness :
    findCycles (buildGraph [c3w1, c3w2]) ≠ [] ∧
      hasCycles (buildGraph [c3w1, c3w2]) = true :=
  C3_two_cycle_detected [c3w1, c3w2] c3w1 c3w2 (by decide) (by decide)
    (by decide) (by decide) (by decide)

/-- C4 counterexample: the task set `[c4task]` is acyclic (its restricted
dependency relation is empty), yet `validateDependencies()` throws instead
of returning a report with `hasCycles = false`, because of the dangling
dependency 99. -/
theorem C4_counterexample :
    AcyclicTasks [c4task] ∧
      validateDependencies (buildGraph [c4task]) = .error () := by
  refine ⟨acyclicTasks_of_lt _ ?_, rfl⟩
  rintro a b ⟨ha, t, ht, hidb, hdep⟩
  rw [List.mem_singleton] at ht
  subst ht
  have ha' : a = 1 := by simpa [idsOf, c4task] using ha
  have hd' : a = 99 := by simpa [c4task] using hdep
  omega

/-- C4 (amended): for every acyclic task set, `hasCycles()` is false; and
when the task set moreover has no dangling dependency references,
`validateDependencies()` returns a report whose `hasCycles` field is
false.  (With a dangling reference the call throws; see
`C4_counterexample`.) -/
theorem C4_acyclic_validation (ts : List Task) (hAc : AcyclicTasks ts) :
    hasCycles (buildGraph ts) = false ∧
      (DepsClosed ts → ∃ r, validateDependencies (buildGraph ts) = .ok r ∧
        r.hasCycles = false) :=
  validate_acyclic ts hAc

/-- C4 witness: the amended claim at a concrete acyclic, dangling-free
input, with both hypotheses discharged. -/
theorem C4_witness :
    hasCycles (buildGraph [c4w1, c4w2]) = false ∧
      ∃ r, validateDependencies (buildGraph [c4w1, c4w2]) = .ok r ∧
        r.hasCycles = false := by
  have hAc : AcyclicTasks [c4w1, c4w2] := by
    apply acyclicTasks_of_lt
    rintro a b ⟨ha, t, ht, hidb, hdep⟩
    rcases List.mem_cons.mp ht with rfl | ht'
    · simp [c4w1] at hdep
    · rw [List.mem_singleton] at ht'
      subst ht'
      have hd' : a = 1 := by simpa [c4w2] using hdep
      have hb' : b = 2 := by simpa [c4w2] using hidb.symm
      omega
  exact ⟨(C4_acyclic_validation [c4w1, c4w2] hAc).1,
    (C4_acyclic_validation [c4w1, c4w2] hAc).2 (by decide)⟩

/-- C10: (a) for every task set in which every listed dependency id has a
corresponding task, `getAvailableTasks()` after `buildGraph()` returns
normally; (b) for every task set with a dangling dependency id `d`,
`buildGraph()` auto-creates a graph node for `d` (`hasNode` is true) with
no task payload (`node d` is `undefined`), and `getAvailableTasks()`
throws a `TypeError` when it reads the status of that undefined payload. -/
theorem C10_availability_requires_closed_deps :
    (∀ ts : List Task, DepsClosed ts →
      ∃ l, getAvailableTasks (buildGraph ts) = .ok l) ∧
    (∀ (ts : List Task) (t : Task) (d : Nat), t ∈ ts → d ∈ t.dependencies →
      d ∉ idsOf ts →
      (buildGraph ts).hasNode d = true ∧ (buildGraph ts).node d = none ∧
        getAvailableTasks (buildGraph ts) = .error ()) := by
  constructor
  · intro ts closed
    exact ⟨_, getAvailableTasks_ok_of_closed ts closed⟩
  · intro ts t d ht hd hdid
    refine ⟨?_, buildGraph_node_dangling ts d hdid,
      getAvailableTasks_error_of_dangling ts t d ht hd hdid⟩
    have hk : d ∈ (buildGraph ts).keys :=
      (buildGraph_keys_mem ts d).mpr (Or.inr ⟨t, ht, hd⟩)
    exact List.elem_iff.mpr hk

/-- C10 witness: both halves at concrete inputs. -/
theorem C10_witness :
    (∃ l, getAvailableTasks (buildGraph [c10w1, c10w2]) = .ok l) ∧
      ((buildGraph [c10u1, c10u2]).hasNode 99 = true ∧
        (buildGraph [c10u1, c10u2]).node 99 = none ∧
        getAvailableTasks (buildGraph [c10u1, c10u2]) = .error ()) :=
  ⟨C10_availability_requires_closed_deps.1 [c10w1, c10w2] (by decide),
    C10_availability_requires_closed_deps.2 [c10u1, c10u2] c10u2 99
      (by decide) (by decide) (by decide)⟩

theorem jsTasks_eq (g : Graph) : jsTasks g = tasksOfGraph g := by
  unfold jsTasks tasksOfGraph
  rw [List.filterMap_map]
  rfl

theorem toVal_pct (C T : Nat) (hT : 0 < T) :
    (((JsNum.ofNat C).div (JsNum.ofNat T)).mul (JsNum.ofNat 100)).toVal =
      some ((C : Rat) / (T : Rat) * 100) := by
  unfold JsNum.ofNat JsNum.div JsNum.mul JsNum.toVal
  simp only
  rw [if_neg (by
    intro h
    simp at h
    omega)]
  congr 1
  have hT0 : (T : Rat) ≠ 0 := by
    exact_mod_cast Nat.pos_iff_ne_zero.mp hT
  push_cast
  field_simp

theorem toVal_pct_nan (C : Nat) :
    (((JsNum.ofNat C).div (JsNum.ofNat 0)).mul (JsNum.ofNat 100)).toVal = none := by
  unfold JsNum.ofNat JsNum.div JsNum.mul JsNum.toVal
  simp

theorem toVal_zero : (JsNum.ofNat 0).toVal = some 0 := by
  unfold JsNum.ofNat JsNum.toVal
  norm_num

theorem getTasksByMilestone_eq (g : Graph) (m : String) (hall : AllPayloads g) :
    getTasksByMilestone g m =
      .ok ((tasksOfGraph g).filter (fun t => t.milestone == some m)) := by
  unfold getTasksByMilestone tasksOfGraph
  have haux : ∀ (l : List Nat) (acc : List Task), (∀ k ∈ l, (g.node k).isSome) →
      milestoneGo g m l acc =
        .ok (acc ++ (l.filterMap g.node).filter (fun t => t.milestone == some m)) := by
    intro l
    induction l with
    | nil => intro acc _; simp [milestoneGo]
    | cons k rest ih =>
      intro acc h
      have hk := h k (List.mem_cons_self _ _)
      cases hu : g.node k with
      | none => rw [hu] at hk; simp at hk
      | some t =>
        simp only [milestoneGo, hu]
        rw [ih _ (fun q hq => h q (List.mem_cons_of_mem _ hq))]
        simp only [List.filterMap_cons, hu]
        by_cases hm : t.milestone = some m
        · rw [if_pos hm, List.filter_cons_of_pos (by simp [hm])]
          simp
        · rw [if_neg hm, List.filter_cons_of_neg (by simp [hm])]
  rw [haux g.keys [] hall]
  simp

theorem milestone_filter_completed (g : Graph) (m : String) :
    (((tasksOfGraph g).filter (fun t => t.milestone == some m)).filter
      (fun t => t.status == "completed")).length = milestoneCompleted g m := by
  unfold milestoneCompleted
  rw [List.filter_filter]

theorem getMilestoneStatus_pct (g : Graph) (m : String) (hall : AllPayloads g) :
    (getMilestoneStatus g m).map (fun s => s.percentComplete.toVal) =
      .ok (if 0 < milestoneTotal g m
        then some ((milestoneCompleted g m : Rat) / (milestoneTotal g m : Rat) * 100)
        else some 0) := by
  unfold getMilestoneStatus
  rw [getTasksByMilestone_eq g m hall]
  simp only [Except.map]
  by_cases hT : 0 < milestoneTotal g m
  · rw [if_pos hT]
    have hTot : ((tasksOfGraph g).filter (fun t => t.milestone == some m)).length =
        milestoneTotal g m := rfl
    rw [show (if 0 < ((tasksOfGraph g).filter (fun t => t.milestone == some m)).length
        then ((JsNum.ofNat (((tasksOfGraph g).filter (fun t => t.milestone == some m)).filter
            (fun t => t.status == "completed")).length).div
          (JsNum.ofNat ((tasksOfGraph g).filter (fun t => t.milestone == some m)).length)).mul
          (JsNum.ofNat 100)
        else JsNum.ofNat 0) =
        ((JsNum.ofNat (milestoneCompleted g m)).div
          (JsNum.ofNat (milestoneTotal g m))).mul (JsNum.ofNat 100) from by
      rw [if_pos (by rw [hTot]; exact hT), milestone_filter_completed, hTot]]
    rw [toVal_pct _ _ hT]
  · rw [if_neg hT]
    have hT0 : ((tasksOfGraph g).filter (fun t => t.milestone == some m)).length = 0 := by
      have : milestoneTotal g m = 0 := Nat.eq_zero_of_not_pos hT
      exact this
    rw [show (if 0 < ((tasksOfGraph g).filter (fun t => t.milestone == some m)).length
        then ((JsNum.ofNat (((tasksOfGraph g).filter (fun t => t.milestone == some m)).filter
            (fun t => t.status == "completed")).length).div
          (JsNum.ofNat ((tasksOfGraph g).filter (fun t => t.milestone == some m)).length)).mul
          (JsNum.ofNat 100)
        else JsNum.ofNat 0) = JsNum.ofNat 0 from by
      rw [if_neg (by rw [hT0]; simp)]]
    rw [toVal_zero]

theorem any_isNone_false (g : Graph) (hall : AllPayloads g) :
    (g.keys.map g.node).any (fun p => p.isNone) = false := by
  by_cases h : (g.keys.map g.node).any (fun p => p.isNone) = true
  · exfalso
    rw [List.any_eq_true] at h
    obtain ⟨p, hp, hnone⟩ := h
    rw [List.mem_map] at hp
    obtain ⟨k, hk, rfl⟩ := hp
    have hsome := hall k hk
    cases hu : g.node k <;> simp [hu] at hsome hnone
  · simpa using h

theorem getCrossRepoDependencies_ok (g : Graph) (k : Nat)
    (h : (g.node k).isSome) : ∃ l, getCrossRepoDependencies g k = .ok l := by
  unfold getCrossRepoDependencies
  cases hu : g.node k with
  | none => rw [hu] at h; simp at h
  | some t => exact ⟨_, rfl⟩

theorem allCrossGo_ok (g : Graph) (l : List Nat)
    (acc : List (Nat × Option String × List Task))
    (hall : ∀ k ∈ l, (g.node k).isSome) :
    ∃ r, allCrossGo g l acc = .ok r := by
  induction l generalizing acc with
  | nil => exact ⟨acc, rfl⟩
  | cons k rest ih =>
    have hk := hall k (List.mem_cons_self _ _)
    obtain ⟨deps, hdeps⟩ := getCrossRepoDependencies_ok g k hk
    cases hu : g.node k with
    | none => rw [hu] at hk; simp at hk
    | some t =>
      simp only [allCrossGo, hdeps, hu]
      exact ih _ (fun q hq => hall q (List.mem_cons_of_mem _ hq))

theorem milestoneStatuses_ok (g : Graph) (hall : AllPayloads g) (l : List String) :
    ∃ r, milestoneStatuses g l = .ok r := by
  induction l with
  | nil => exact ⟨[], rfl⟩
  | cons m rest ih =>
    have hms : ∃ s, getMilestoneStatus g m = .ok s := by
      unfold getMilestoneStatus
      rw [getTasksByMilestone_eq g m hall]
      exact ⟨_, rfl⟩
    obtain ⟨s0, hs0⟩ := hms
    obtain ⟨rs, hrs⟩ := ih
    exact ⟨s0 :: rs, by simp only [milestoneStatuses, hs0, hrs]⟩

theorem getProjectStatus_pct (g : Graph) (hall : AllPayloads g) :
    (getProjectStatus g).map (fun s => s.percentComplete.toVal) =
      .ok (if 0 < projectTotal g
        then some ((projectCompleted g : Rat) / (projectTotal g : Rat) * 100)
        else none) := by
  unfold getProjectStatus
  rw [if_neg (by rw [any_isNone_false g hall]; simp)]
  obtain ⟨ms, hms⟩ := milestoneStatuses_ok g hall
    (dedupFirst (((jsTasks g).filterMap Task.milestone).filter (fun m => !(m == ""))))
  obtain ⟨cr, hcr⟩ := allCrossGo_ok g g.keys []
    (fun k hk => hall k hk)
  have hcr' : getAllCrossRepoDependencies g = .ok cr := hcr
  simp only [hms, hcr']
  simp only [Except.map]
  rw [show ((jsTasks g).filter (fun t => t.status == "completed")).length =
    projectCompleted g from by rw [jsTasks_eq]; rfl]
  rw [show (jsTasks g).length = projectTotal g from by rw [jsTasks_eq]; rfl]
  by_cases hT : 0 < projectTotal g
  · rw [if_pos hT, toVal_pct _ _ hT]
  · rw [if_neg hT]
    have h0 : projectTotal g = 0 := Nat.eq_zero_of_not_pos hT
    rw [h0, toVal_pct_nan]

/-- C5 counterexample: on the empty graph, `getProjectStatus()` returns
`percentComplete = 0/0` (`NaN`, modelled as the non-finite value `none`),
not 0 as claimed — the project aggregate has no zero-total guard. -/
theorem C5_counterexample :
    (getProjectStatus (buildGraph [])).map (fun s => s.percentComplete.toVal) =
      .ok none ∧
    ¬ (getProjectStatus (buildGraph [])).map (fun s => s.percentComplete.toVal) =
      .ok (some 0) := by
  refine ⟨rfl, ?_⟩
  intro h
  rw [show (getProjectStatus (buildGraph [])).map (fun s => s.percentComplete.toVal) =
      .ok none from rfl] at h
  simp at h

/-- C5 (amended): for every graph whose nodes all carry a task payload,
`getMilestoneStatus(m).percentComplete` equals (completed in m)/(total in
m)·100 and is 0 when the milestone has no tasks; and
`getProjectStatus().percentComplete` equals completedTasks/totalTasks·100
when the graph has tasks and is the non-finite `0/0` (`NaN`, not 0) when
the graph contains no tasks. -/
theorem C5_percent_complete (g : Graph) (m : String) (hall : AllPayloads g) :
    ((getMilestoneStatus g m).map (fun s => s.percentComplete.toVal) =
      .ok (if 0 < milestoneTotal g m
        then some ((milestoneCompleted g m : Rat) / (milestoneTotal g m : Rat) * 100)
        else some 0)) ∧
    ((getProjectStatus g).map (fun s => s.percentComplete.toVal) =
      .ok (if 0 < projectTotal g
        then some ((projectCompleted g : Rat) / (projectTotal g : Rat) * 100)
        else none)) :=
  ⟨getMilestoneStatus_pct g m hall, getProjectStatus_pct g hall⟩

/-- C5 witness: the amended claim at a concrete two-task milestone. -/
theorem C5_witness :
    ((getMilestoneStatus (buildGraph [c5w1, c5w2]) "alpha").map
        (fun s => s.percentComplete.toVal) =
      .ok (if 0 < milestoneTotal (buildGraph [c5w1, c5w2]) "alpha"
        then some ((milestoneCompleted (buildGraph [c5w1, c5w2]) "alpha" : Rat) /
          (milestoneTotal (buildGraph [c5w1, c5w2]) "alpha" : Rat) * 100)
        else some 0)) ∧
    ((getProjectStatus (buildGraph [c5w1, c5w2])).map
        (fun s => s.percentComplete.toVal) =
      .ok (if 0 < projectTotal (buildGraph [c5w1, c5w2])
        then some ((projectCompleted (buildGraph [c5w1, c5w2]) : Rat) /
          (projectTotal (buildGraph [c5w1, c5w2]) : Rat) * 100)
        else none)) :=
  C5_percent_complete (buildGraph [c5w1, c5w2]) "alpha" (by decide)

/-! ### Lemmas on the recommendation scoring -/
theorem scoreTask_task {g : Graph} {t : Task} {e : RecEntry}
    (h : scoreTask g t = .ok e) : e.task = t := by
  unfold scoreTask at h
  cases hcf : crossFactor g t with
  | error u => rw [hcf] at h; exact absurd h (by simp)
  | ok cf =>
    rw [hcf] at h
    cases hmf : milestoneFactor g t with
    | error u => rw [hmf] at h; exact absurd h (by simp)
    | ok mf =>
      rw [hmf] at h
      cases h
      rfl

theorem crossFactor_den_pos {g : Graph} {t : Task} {v : JsNum}
    (h : crossFactor g t = .ok v) : 0 < v.den := by
  unfold crossFactor at h
  cases h1 : getCrossRepoDependencies g t.id with
  | error u => rw [h1] at h; exact absurd h (by simp)
  | ok deps =>
    rw [h1] at h
    cases h2 : getCrossRepoDependents g t.id with
    | error u => rw [h2] at h; exact absurd h (by simp)
    | ok dependents =>
      rw [h2] at h
      cases h
      simp [JsNum.mul, JsNum.ofNat]

theorem getMilestoneStatus_den_pos {g : Graph} {m : String} {s : MilestoneStatus}
    (h : getMilestoneStatus g m = .ok s) : 0 < s.percentComplete.den := by
  unfold getMilestoneStatus at h
  cases htm : getTasksByMilestone g m with
  | error u => rw [htm] at h; exact absurd h (by simp [Except.map])
  | ok tasks =>
    rw [htm] at h
    simp only [Except.map] at h
    cases h
    by_cases hT : 0 < tasks.length
    · simp only [if_pos hT, JsNum.div, JsNum.mul, JsNum.ofNat]
      simp only [one_mul, mul_one]
      exact_mod_cast hT
    · simp only [if_neg hT, JsNum.ofNat]
      exact Int.zero_lt_one

theorem milestoneFactor_den_pos {g : Graph} {t : Task} {v : JsNum}
    (h : milestoneFactor g t = .ok v) : 0 < v.den := by
  cases hm : t.milestone with
  | none =>
    simp only [milestoneFactor, hm] at h
    cases h
    exact Int.zero_lt_one
  | some m =>
    simp only [milestoneFactor, hm] at h
    by_cases he : m = ""
    · rw [if_pos he] at h
      cases h
      exact Int.zero_lt_one
    · rw [if_neg he] at h
      cases hms : getMilestoneStatus g m with
      | error u => rw [hms] at h; exact absurd h (by simp)
      | ok ms =>
        rw [hms] at h
        cases h
        have hp := getMilestoneStatus_den_pos hms
        simp only [JsNum.mul, JsNum.sub, JsNum.div, JsNum.ofNat]
        simp only [one_mul, mul_one]
        positivity

theorem complexityFactor_den_pos (t : Task) : 0 < (complexityFactor t).den := by
  cases hc : t.complexity with
  | none => simp [complexityFactor, hc, JsNum.ofNat]
  | some c =>
    by_cases h : c = 0
    · simp [complexityFactor, hc, h, JsNum.ofNat]
    · simp [complexityFactor, hc, h, JsNum.mul, JsNum.sub, JsNum.ofNat]

theorem downstreamFactor_den_pos (g : Graph) (t : Task) :
    0 < (downstreamFactor g t).den := by
  simp [downstreamFactor, JsNum.mul, JsNum.ofNat]

theorem scoreTask_den_pos {g : Graph} {t : Task} {e : RecEntry}
    (h : scoreTask g t = .ok e) : 0 < e.priorityScore.den := by
  unfold scoreTask at h
  cases hcf : crossFactor g t with
  | error u => rw [hcf] at h; exact absurd h (by simp)
  | ok cf =>
    rw [hcf] at h
    cases hmf : milestoneFactor g t with
    | error u => rw [hmf] at h; exact absurd h (by simp)
    | ok mf =>
      rw [hmf] at h
      cases h
      have h1 := downstreamFactor_den_pos g t
      have h2 := crossFactor_den_pos hcf
      have h3 := milestoneFactor_den_pos hmf
      have h4 := complexityFactor_den_pos t
      simp only [JsNum.add, JsNum.ofNat]
      positivity

theorem scoreList_forward {g : Graph} {l : List Task} {es : List RecEntry}
    (h : scoreList g l = .ok es) :
    ∀ t ∈ l, ∃ e ∈ es, scoreTask g t = .ok e := by
  induction l generalizing es with
  | nil => intro t ht; exact absurd ht (by simp)
  | cons t0 rest ih =>
    unfold scoreList at h
    cases h1 : scoreTask g t0 with
    | error u => rw [h1] at h; exact absurd h (by simp)
    | ok e1 =>
      rw [h1] at h
      cases h2 : scoreList g rest with
      | error u => rw [h2] at h; exact absurd h (by simp)
      | ok es' =>
        rw [h2] at h
        cases h
        intro t ht
        rcases List.mem_cons.mp ht with rfl | ht'
        · exact ⟨e1, List.mem_cons_self _ _, h1⟩
        · obtain ⟨e, he, hse⟩ := ih h2 t ht'
          exact ⟨e, List.mem_cons_of_mem _ he, hse⟩

theorem scoreList_backward {g : Graph} {l : List Task} {es : List RecEntry}
    (h : scoreList g l = .ok es) :
    ∀ e ∈ es, ∃ t ∈ l, scoreTask g t = .ok e := by
  induction l generalizing es with
  | nil =>
    unfold scoreList at h
    cases h
    intro e he
    exact absurd he (by simp)
  | cons t0 rest ih =>
    unfold scoreList at h
    cases h1 : scoreTask g t0 with
    | error u => rw [h1] at h; exact absurd h (by simp)
    | ok e1 =>
      rw [h1] at h
      cases h2 : scoreList g rest with
      | error u => rw [h2] at h; exact absurd h (by simp)
      | ok es' =>
        rw [h2] at h
        cases h
        intro e he
        rcases List.mem_cons.mp he with rfl | he'
        · exact ⟨t0, List.mem_cons_self _ _, h1⟩
        · obtain ⟨t, ht, hst⟩ := ih h2 e he'
          exact ⟨t, List.mem_cons_of_mem _ ht, hst⟩

/-! ### The stable sort and the comparator order -/
theorem insSorted_perm {α : Type} (le : α → α → Bool) (x : α) (l : List α) :
    (insSorted le x l).Perm (x :: l) := by
  induction l with
  | nil => simp [insSorted]
  | cons y ys ih =>
    unfold insSorted
    by_cases h : le x y = true
    · rw [if_pos h]
    · rw [if_neg h]
      exact (ih.cons y).trans (List.Perm.swap x y ys)

theorem sortBy_perm {α : Type} (le : α → α → Bool) (l : List α) :
    (sortBy le l).Perm l := by
  induction l with
  | nil => simp [sortBy]
  | cons x xs ih =>
    unfold sortBy
    exact (insSorted_perm le x (sortBy le xs)).trans (ih.cons x)

theorem insSorted_pairwise {α : Type} (le : α → α → Bool) (x : α) (l : List α)
    (htot : ∀ y ∈ l, le x y = true ∨ le y x = true)
    (htr : ∀ a ∈ x :: l, ∀ b ∈ x :: l, ∀ c ∈ x :: l,
      le a b = true → le b c = true → le a c = true)
    (hp : l.Pairwise (fun a b => le a b = true)) :
    (insSorted le x l).Pairwise (fun a b => le a b = true) := by
  induction l with
  | nil => simp [insSorted]
  | cons y ys ih =>
    rw [List.pairwise_cons] at hp
    obtain ⟨hy, hys⟩ := hp
    unfold insSorted
    by_cases hxy : le x y = true
    · rw [if_pos hxy]
      refine List.Pairwise.cons ?_ (List.Pairwise.cons hy hys)
      intro z hz
      rcases List.mem_cons.mp hz with rfl | hz'
      · exact hxy
      · exact htr x (by simp) y (by simp) z (by simp [hz']) hxy (hy z hz')
    · rw [if_neg hxy]
      have hyx : le y x = true := (htot y (by simp)).resolve_left hxy
      have hsub : ∀ a, a ∈ x :: ys → a ∈ x :: y :: ys := by
        intro a ha
        rcases List.mem_cons.mp ha with rfl | h'
        · exact List.mem_cons_self _ _
        · exact List.mem_cons_of_mem _ (List.mem_cons_of_mem _ h')
      refine List.Pairwise.cons ?_ ?_
      · intro z hz
        have hz2 : z = x ∨ z ∈ ys := by
          have := (insSorted_perm le x ys).mem_iff.mp hz
          simpa using this
        rcases hz2 with rfl | hz'
        · exact hyx
        · exact hy z hz'
      · exact ih (fun z hz => htot z (List.mem_cons_of_mem _ hz))
          (fun a ha b hb c hc => htr a (hsub a ha) b (hsub b hb) c (hsub c hc)) hys

theorem sortBy_pairwise {α : Type} (le : α → α → Bool) (l : List α)
    (htot : ∀ a ∈ l, ∀ b ∈ l, le a b = true ∨ le b a = true)
    (htr : ∀ a ∈ l, ∀ b ∈ l, ∀ c ∈ l,
      le a b = true → le b c = true → le a c = true) :
    (sortBy le l).Pairwise (fun a b => le a b = true) := by
  induction l with
  | nil => simp [sortBy]
  | cons x xs ih =>
    unfold sortBy
    have hmem : ∀ a, a ∈ x :: sortBy le xs → a ∈ x :: xs := by
      intro a ha
      rcases List.mem_cons.mp ha with rfl | h'
      · exact List.mem_cons_self _ _
      · exact List.mem_cons_of_mem _ ((sortBy_perm le xs).mem_iff.mp h')
    refine insSorted_pairwise le x (sortBy le xs) ?_ ?_ ?_
    · intro y hy
      exact htot x (List.mem_cons_self _ _)
        y (List.mem_cons_of_mem _ ((sortBy_perm le xs).mem_iff.mp hy))
    · intro a ha b hb c hc
      exact htr a (hmem a ha) b (hmem b hb) c (hmem c hc)
    · exact ih
        (fun a ha b hb => htot a (List.mem_cons_of_mem _ ha) b (List.mem_cons_of_mem _ hb))
        (fun a ha b hb c hc => htr a (List.mem_cons_of_mem _ ha)
          b (List.mem_cons_of_mem _ hb) c (List.mem_cons_of_mem _ hc))

theorem jsNumLe_total (x y : JsNum) : jsNumLe x y = true ∨ jsNumLe y x = true := by
  unfold jsNumLe
  simp only [decide_eq_true_eq]
  rcases Int.le_total (x.num * y.den * (x.den * y.den)) (y.num * x.den * (x.den * y.den))
    with h | h
  · exact Or.inl h
  · right
    rw [mul_comm y.den x.den]
    exact h

theorem jsNumLe_trans {x y z : JsNum} (hx : 0 < x.den) (hy : 0 < y.den)
    (hz : 0 < z.den) (h1 : jsNumLe x y = true) (h2 : jsNumLe y z = true) :
    jsNumLe x z = true := by
  unfold jsNumLe at h1 h2 ⊢
  simp only [decide_eq_true_eq] at h1 h2 ⊢
  have h1' : x.num * y.den ≤ y.num * x.den := le_of_mul_le_mul_right h1 (mul_pos hx hy)
  have h2' : y.num * z.den ≤ z.num * y.den := le_of_mul_le_mul_right h2 (mul_pos hy hz)
  have key : x.num * z.den ≤ z.num * x.den := by
    have a1 := mul_le_mul_of_nonneg_right h1' (le_of_lt hz)
    have a2 := mul_le_mul_of_nonneg_right h2' (le_of_lt hx)
    have hmid : x.num * z.den * y.den ≤ z.num * x.den * y.den := by nlinarith [a1, a2]
    exact le_of_mul_le_mul_right hmid hy
  exact mul_le_mul_of_nonneg_right key (le_of_lt (mul_pos hx hz))

theorem scoreLe_total (a b : RecEntry) : scoreLe a b = true ∨ scoreLe b a = true := by
  unfold scoreLe
  exact jsNumLe_total b.priorityScore a.priorityScore

theorem scoreLe_trans {a b c : RecEntry} (ha : 0 < a.priorityScore.den)
    (hb : 0 < b.priorityScore.den) (hc : 0 < c.priorityScore.den)
    (h1 : scoreLe a b = true) (h2 : scoreLe b c = true) : scoreLe a c = true := by
  unfold scoreLe at h1 h2 ⊢
  exact jsNumLe_trans hc hb ha h2 h1

/-! ### Rational semantics of the score arithmetic -/
theorem toVal_some_of_den_pos {a : JsNum} (h : 0 < a.den) :
    ∃ q : Rat, a.toVal = some q := by
  refine ⟨(a.num : Rat) / (a.den : Rat), ?_⟩
  unfold JsNum.toVal
  rw [if_neg (by omega)]

theorem toVal_add {a b : JsNum} {qa qb : Rat} (ha : a.toVal = some qa)
    (hb : b.toVal = some qb) : (a.add b).toVal = some (qa + qb) := by
  unfold JsNum.toVal at ha hb
  by_cases h1 : a.den = 0
  · rw [if_pos h1] at ha; exact absurd ha (by simp)
  · rw [if_neg h1] at ha
    by_cases h2 : b.den = 0
    · rw [if_pos h2] at hb; exact absurd hb (by simp)
    · rw [if_neg h2] at hb
      unfold JsNum.toVal JsNum.add
      rw [if_neg (mul_ne_zero h1 h2)]
      congr 1
      rw [← Option.some.inj ha, ← Option.some.inj hb]
      have ha' : (a.den : Rat) ≠ 0 := Int.cast_ne_zero.mpr h1
      have hb' : (b.den : Rat) ≠ 0 := Int.cast_ne_zero.mpr h2
      push_cast
      field_simp

theorem complexityFactor_toVal {t : Task} {c : Nat} (hc : t.complexity = some c)
    (h0 : c ≠ 0) :
    (complexityFactor t).toVal = some ((5 - (c : Rat)) * 5) := by
  simp only [complexityFactor, hc]
  rw [if_neg h0]
  unfold JsNum.ofNat JsNum.sub JsNum.mul JsNum.toVal
  norm_num

theorem jsNumLe_toVal {x y : JsNum} {qx qy : Rat} (hx : 0 < x.den) (hy : 0 < y.den)
    (hvx : x.toVal = some qx) (hvy : y.toVal = some qy)
    (h : jsNumLe x y = true) : qx ≤ qy := by
  unfold jsNumLe at h
  simp only [decide_eq_true_eq] at h
  have h' : x.num * y.den ≤ y.num * x.den := le_of_mul_le_mul_right h (mul_pos hx hy)
  unfold JsNum.toVal at hvx hvy
  rw [if_neg (by omega)] at hvx
  rw [if_neg (by omega)] at hvy
  rw [← Option.some.inj hvx, ← Option.some.inj hvy]
  rw [div_le_div_iff (by exact_mod_cast hx) (by exact_mod_cast hy)]
  exact_mod_cast h'

theorem scoreTask_ok_inv {g : Graph} {t : Task} {e : RecEntry}
    (h : scoreTask g t = .ok e) :
    ∃ cf mf, crossFactor g t = .ok cf ∧ milestoneFactor g t = .ok mf := by
  unfold scoreTask at h
  cases hcf : crossFactor g t with
  | error u => rw [hcf] at h; exact absurd h (by simp)
  | ok cf =>
    rw [hcf] at h
    cases hmf : milestoneFactor g t with
    | error u => rw [hmf] at h; exact absurd h (by simp)
    | ok mf => exact ⟨cf, mf, rfl, rfl⟩

theorem scoreTask_score {g : Graph} {t : Task} {e : RecEntry} {cf mf : JsNum}
    (hcf : crossFactor g t = .ok cf) (hmf : milestoneFactor g t = .ok mf)
    (h : scoreTask g t = .ok e) :
    e.priorityScore =
      ((((JsNum.ofNat 0).add (downstreamFactor g t)).add cf).add mf).add
        (complexityFactor t) := by
  unfold scoreTask at h
  rw [hcf, hmf] at h
  cases h
  rfl

/-- **C9** — Among available tasks passing the option filters whose
downstream, cross-repo and milestone score factors are equal, a task of
complexity 1 receives a strictly higher `priorityScore` than a task of
complexity 4 (the complexity factor being `(5 - complexity) * 5`), and
every occurrence of the complexity-1 task precedes every occurrence of the
complexity-4 task in the list returned by `getRecommendedTasks` when no
limit option is given. -/
theorem C9_recommendation_order (g : Graph) (opts : RecOptions)
    (rec : List RecEntry) (t1 t4 : Task) (avail : List Task)
    (hlim : opts.limit = none)
    (hav : getAvailableTasks g = .ok avail)
    (hrec : getRecommendedTasks g opts = .ok rec)
    (h1a : t1 ∈ avail) (h4a : t4 ∈ avail)
    (h1f : optFilter opts t1 = true) (h4f : optFilter opts t4 = true)
    (hne : t1 ≠ t4)
    (hds : downstreamFactor g t1 = downstreamFactor g t4)
    (hcfac : crossFactor g t1 = crossFactor g t4)
    (hmfac : milestoneFactor g t1 = milestoneFactor g t4)
    (hc1 : t1.complexity = some 1) (hc4 : t4.complexity = some 4) :
    (∃ e1 ∈ rec, ∃ e4 ∈ rec, e1.task = t1 ∧ e4.task = t4 ∧
      ∃ q1 q4 : Rat, e1.priorityScore.toVal = some q1 ∧
        e4.priorityScore.toVal = some q4 ∧ q4 < q1) ∧
    ∀ i j : Nat, ∀ hi : i < rec.length, ∀ hj : j < rec.length,
      (rec.get ⟨i, hi⟩).task = t1 → (rec.get ⟨j, hj⟩).task = t4 → i < j := by
  simp only [getRecommendedTasks, hav] at hrec
  cases hsl : scoreList g (avail.filter (optFilter opts)) with
  | error u => rw [hsl] at hrec; exact absurd hrec (by simp)
  | ok entries =>
    simp only [hsl, hlim] at hrec
    have hrecs : rec = sortBy scoreLe entries := by
      cases hrec
      rfl
    subst hrecs
    have h1m : t1 ∈ avail.filter (optFilter opts) := List.mem_filter.mpr ⟨h1a, h1f⟩
    have h4m : t4 ∈ avail.filter (optFilter opts) := List.mem_filter.mpr ⟨h4a, h4f⟩
    obtain ⟨e1, he1mem, he1⟩ := scoreList_forward hsl t1 h1m
    obtain ⟨e4, he4mem, he4⟩ := scoreList_forward hsl t4 h4m
    obtain ⟨cf, mf, hcf1, hmf1⟩ := scoreTask_ok_inv he1
    obtain ⟨cf4, mf4, hcf4, hmf4⟩ := scoreTask_ok_inv he4
    have hcfe : cf4 = cf :=
      (Except.ok.inj (hcf1.symm.trans (hcfac.trans hcf4))).symm
    have hmfe : mf4 = mf :=
      (Except.ok.inj (hmf1.symm.trans (hmfac.trans hmf4))).symm
    have hs1 : e1.priorityScore =
        ((((JsNum.ofNat 0).add (downstreamFactor g t1)).add cf).add mf).add
          (complexityFactor t1) := scoreTask_score hcf1 hmf1 he1
    have hs4 : e4.priorityScore =
        ((((JsNum.ofNat 0).add (downstreamFactor g t1)).add cf).add mf).add
          (complexityFactor t4) := by
      rw [scoreTask_score hcf4 hmf4 he4, hcfe, hmfe, ← hds]
    have hPden :
        0 < ((((JsNum.ofNat 0).add (downstreamFactor g t1)).add cf).add mf).den := by
      have h1 := downstreamFactor_den_pos g t1
      have h2 := crossFactor_den_pos hcf1
      have h3 := milestoneFactor_den_pos hmf1
      simp only [JsNum.add, JsNum.ofNat]
      positivity
    obtain ⟨qP, hqP⟩ := toVal_some_of_den_pos hPden
    have hv1 : e1.priorityScore.toVal = some (qP + (5 - ((1 : Nat) : Rat)) * 5) := by
      rw [hs1]
      exact toVal_add hqP (complexityFactor_toVal hc1 (by norm_num))
    have hv4 : e4.priorityScore.toVal = some (qP + (5 - ((4 : Nat) : Rat)) * 5) := by
      rw [hs4]
      exact toVal_add hqP (complexityFactor_toVal hc4 (by norm_num))
    have hlt : qP + (5 - ((4 : Nat) : Rat)) * 5 < qP + (5 - ((1 : Nat) : Rat)) * 5 := by
      push_cast
      linarith
    have hall : ∀ e ∈ entries, 0 < e.priorityScore.den := by
      intro e he
      obtain ⟨t, _, hst⟩ := scoreList_backward hsl e he
      exact scoreTask_den_pos hst
    have hpw : (sortBy scoreLe entries).Pairwise (fun a b => scoreLe a b = true) :=
      sortBy_pairwise scoreLe entries (fun a _ b _ => scoreLe_total a b)
        (fun a ha b hb c hc => scoreLe_trans (hall a ha) (hall b hb) (hall c hc))
    constructor
    · exact ⟨e1, (sortBy_perm scoreLe entries).mem_iff.mpr he1mem,
        e4, (sortBy_perm scoreLe entries).mem_iff.mpr he4mem,
        scoreTask_task he1, scoreTask_task he4,
        _, _, hv1, hv4, hlt⟩
    · intro i j hi hj hti htj
      have hai : (sortBy scoreLe entries).get ⟨i, hi⟩ ∈ entries :=
        (sortBy_perm scoreLe entries).mem_iff.mp (List.get_mem _ _ _)
      have haj : (sortBy scoreLe entries).get ⟨j, hj⟩ ∈ entries :=
        (sortBy_perm scoreLe entries).mem_iff.mp (List.get_mem _ _ _)
      obtain ⟨ti, htim, hsti⟩ := scoreList_backward hsl _ hai
      obtain ⟨tj, htjm, hstj⟩ := scoreList_backward hsl _ haj
      have hti1 : ti = t1 := by rw [← hti, scoreTask_task hsti]
      have htj4 : tj = t4 := by rw [← htj, scoreTask_task hstj]
      rw [hti1] at hsti
      rw [htj4] at hstj
      have hei : (sortBy scoreLe entries).get ⟨i, hi⟩ = e1 :=
        Except.ok.inj (hsti.symm.trans he1)
      have hej : (sortBy scoreLe entries).get ⟨j, hj⟩ = e4 :=
        Except.ok.inj (hstj.symm.trans he4)
      rcases Nat.lt_trichotomy i j with h | h | h
      · exact h
      · exfalso
        apply hne
        subst h
        rw [← hti]
        exact htj
      · exfalso
        have hp := (List.pairwise_iff_get.mp hpw) ⟨j, hj⟩ ⟨i, hi⟩ (Fin.mk_lt_mk.mpr h)
        rw [hei, hej] at hp
        unfold scoreLe at hp
        have hq := jsNumLe_toVal (scoreTask_den_pos he1) (scoreTask_den_pos he4)
          hv1 hv4 hp
        linarith [hlt, hq]

theorem C9_witness :
    getRecommendedTasks (buildGraph [c9w1, c9w2]) {} = .ok c9rec ∧
    ((∃ e1 ∈ c9rec, ∃ e4 ∈ c9rec, e1.task = c9w2 ∧ e4.task = c9w1 ∧
      ∃ q1 q4 : Rat, e1.priorityScore.toVal = some q1 ∧
        e4.priorityScore.toVal = some q4 ∧ q4 < q1) ∧
     ∀ i j : Nat, ∀ hi : i < c9rec.length, ∀ hj : j < c9rec.length,
       (c9rec.get ⟨i, hi⟩).task = c9w2 → (c9rec.get ⟨j, hj⟩).task = c9w1 →
         i < j) :=
  ⟨rfl, C9_recommendation_order (buildGraph [c9w1, c9w2]) {} c9rec c9w2 c9w1
    [c9w1, c9w2] rfl rfl rfl (by simp) (by simp) rfl rfl (by decide)
    rfl rfl rfl rfl rfl⟩

/-- **C8 counterexample** — the spec's values `review` and `ready` are
rejected by the schema's status enum, which has only four values. -/
theorem C8_counterexample :
    "review" ∈ specStatusValues ∧ schemaStatusOk "review" = false ∧
    "ready" ∈ specStatusValues ∧ schemaStatusOk "ready" = false := by
  refine ⟨by decide, by decide, by decide, by decide⟩

theorem schemaStatusOk_iff (s : String) :
    schemaStatusOk s = true ↔
      (s = "pending" ∨ s = "in_progress" ∨ s = "blocked" ∨ s = "completed") := by
  unfold schemaStatusOk statusEnum
  rw [List.contains_eq_any_beq]
  simp [List.any_eq_true, beq_iff_eq]

/-- **C8** — A status value passes the snapshot schema's status check iff
it is one of the four enumerated values `pending`, `in_progress`,
`blocked`, `completed`; a snapshot's statuses all pass iff each is among
those four (so `review` and `ready` make validation fail). -/
theorem C8_status_enum (statuses : List String) :
    snapshotStatusOk statuses = true ↔
      ∀ s ∈ statuses,
        s = "pending" ∨ s = "in_progress" ∨ s = "blocked" ∨ s = "completed" := by
  unfold snapshotStatusOk
  rw [List.all_eq_true]
  constructor
  · intro h s hs
    exact (schemaStatusOk_iff s).mp (h s hs)
  · intro h s hs
    exact (schemaStatusOk_iff s).mpr (h s hs)

/-! ### Split/join lemmas for `addReference` -/
theorem chSplit_ne_nil (sep : Char) (s : List Char) : chSplit sep s ≠ [] := by
  induction s with
  | nil => simp [chSplit]
  | cons c rest ih =>
    simp only [chSplit]
    cases h : chSplit sep rest with
    | nil => exact absurd h ih
    | cons l ls =>
      by_cases hc : c = sep
      · simp [hc]
      · simp [hc]

theorem chSplit_pieces (sep : Char) (s : List Char) :
    ∀ p ∈ chSplit sep s, sep ∉ p := by
  induction s with
  | nil =>
    intro p hp
    simp only [chSplit, List.mem_singleton] at hp
    subst hp
    simp
  | cons c rest ih =>
    intro p hp
    cases h : chSplit sep rest with
    | nil => exact absurd h (chSplit_ne_nil sep rest)
    | cons l ls =>
      simp only [chSplit, h] at hp
      by_cases hc : c = sep
      · rw [if_pos hc] at hp
        rcases List.mem_cons.mp hp with rfl | hp'
        · simp
        · exact ih p (by rw [h]; exact hp')
      · rw [if_neg hc] at hp
        rcases List.mem_cons.mp hp with rfl | hp'
        · intro hmem
          rcases List.mem_cons.mp hmem with rfl | hmem'
          · exact hc rfl
          · exact ih l (by rw [h]; exact List.mem_cons_self l ls) hmem'
        · exact ih p (by rw [h]; exact List.mem_cons_of_mem l hp')

theorem chSplit_prepend (sep : Char) (t h0 : List Char) (hs : List (List Char))
    (ht : chSplit sep t = h0 :: hs) :
    ∀ l : List Char, sep ∉ l → chSplit sep (l ++ t) = (l ++ h0) :: hs := by
  intro l
  induction l with
  | nil => intro _; simpa using ht
  | cons c cs ih =>
    intro hl
    have hc : ¬ c = sep := by
      intro e
      exact hl (by simp [e])
    have hcs : sep ∉ cs := fun e => hl (List.mem_cons_of_mem _ e)
    cases hsp : chSplit sep (cs ++ t) with
    | nil => exact absurd hsp (chSplit_ne_nil sep (cs ++ t))
    | cons l ls =>
      have hih := ih hcs
      rw [hsp] at hih
      obtain ⟨h1, h2⟩ := List.cons.inj hih
      show chSplit sep (c :: (cs ++ t)) = ((c :: cs) ++ h0) :: hs
      simp only [chSplit, hsp]
      simp [hc, h1, h2]

theorem chSplit_sep_cons (sep : Char) (u : List Char) :
    chSplit sep (sep :: u) = [] :: chSplit sep u := by
  simp only [chSplit]
  cases h : chSplit sep u with
  | nil => exact absurd h (chSplit_ne_nil sep u)
  | cons l ls => simp

theorem chSplit_joinNl : ∀ ls : List (List Char), ls ≠ [] →
    (∀ p ∈ ls, '\n' ∉ p) → chSplit '\n' (joinNl ls) = ls
  | [], h, _ => absurd rfl h
  | [l], _, hp => by
      have h2 := chSplit_prepend '\n' [] [] [] (by simp [chSplit]) l (hp l (by simp))
      simpa [joinNl] using h2
  | l :: r :: rs, _, hp => by
      have htail : chSplit '\n' (joinNl (r :: rs)) = r :: rs :=
        chSplit_joinNl (r :: rs) (by simp)
          (fun p hpp => hp p (List.mem_cons_of_mem _ hpp))
      have hsep : chSplit '\n' ('\n' :: joinNl (r :: rs)) = [] :: r :: rs := by
        rw [chSplit_sep_cons, htail]
      have h2 := chSplit_prepend '\n' ('\n' :: joinNl (r :: rs)) [] (r :: rs) hsep
        l (hp l (by simp))
      calc chSplit '\n' (joinNl (l :: r :: rs))
          = chSplit '\n' (l ++ '\n' :: joinNl (r :: rs)) := rfl
        _ = (l ++ []) :: r :: rs := h2
        _ = l :: r :: rs := by simp

theorem findIdxQ_bound {α : Type} {p : α → Bool} :
    ∀ (l : List α) (i n : Nat),
      List.findIdx? p l i = some n → i ≤ n ∧ n < i + l.length := by
  intro l
  induction l with
  | nil => intro i n h; simp [List.findIdx?] at h
  | cons x xs ih =>
    intro i n h
    rw [List.findIdx?_cons] at h
    by_cases hp : p x = true
    · rw [if_pos hp] at h
      cases h
      simp only [List.length_cons]
      omega
    · rw [if_neg hp] at h
      have := ih (i + 1) n h
      simp only [List.length_cons]
      omega

theorem findIdxQ_lt_length {α : Type} {p : α → Bool} {l : List α} {n : Nat}
    (h : l.findIdx? p = some n) : n < l.length := by
  have := findIdxQ_bound l 0 n h
  omega

theorem lastRefGo_cases : ∀ (L : List (List Char)) (i : Nat) (last : Int),
    lastRefGo L i last = last ∨
      ∃ j : Nat, i ≤ j ∧ j < i + L.length ∧ lastRefGo L i last = (j : Int) := by
  intro L
  induction L with
  | nil => intro i last; left; rfl
  | cons l rest ih =>
    intro i last
    simp only [lastRefGo]
    by_cases h1 : ['-', ' '].isPrefixOf l = true
    · rw [if_pos h1]
      rcases ih (i + 1) (i : Int) with h | ⟨j, hj1, hj2, hj3⟩
      · right
        exact ⟨i, le_refl i, by simp only [List.length_cons]; omega, h⟩
      · right
        exact ⟨j, by omega, by simp only [List.length_cons]; omega, hj3⟩
    · rw [if_neg h1]
      by_cases h2 : ['#', '#'].isPrefixOf l = true
      · rw [if_pos h2]; left; rfl
      · rw [if_neg h2]
        rcases ih (i + 1) last with h | ⟨j, hj1, hj2, hj3⟩
        · left; exact h
        · right
          exact ⟨j, by omega, by simp only [List.length_cons]; omega, hj3⟩

theorem hdrIdx_cases (body : List Char) : hdrIdx body = -1 ∨
    ∃ n : Nat,
      (chLines body).findIdx? (fun l => decide (l = refHeaderLine)) = some n ∧
      hdrIdx body = (n : Int) ∧ n < (chLines body).length := by
  unfold hdrIdx findIdxInt
  cases hf : (chLines body).findIdx? (fun l => decide (l = refHeaderLine)) with
  | none => left; rfl
  | some n => right; exact ⟨n, rfl, rfl, findIdxQ_lt_length hf⟩

theorem spliceAt_le (body : List Char) : spliceAt body ≤ (chLines body).length := by
  unfold spliceAt
  rcases hdrIdx_cases body with h | ⟨n, _, h, hn⟩ <;> rw [h]
  · rcases lastRefGo_cases ((chLines body).drop (Int.toNat (-1 + 1)))
      (Int.toNat (-1 + 1)) (-1) with hc | ⟨j, hj1, hj2, hj3⟩
    · rw [hc]; simp
    · rw [hj3]
      have hlen := List.length_drop (Int.toNat (-1 + 1)) (chLines body)
      omega
  · rcases lastRefGo_cases ((chLines body).drop (Int.toNat ((n : Int) + 1)))
      (Int.toNat ((n : Int) + 1)) (n : Int) with hc | ⟨j, hj1, hj2, hj3⟩
    · rw [hc]; omega
    · rw [hj3]
      have hlen := List.length_drop (Int.toNat ((n : Int) + 1)) (chLines body)
      omega

theorem hdr_lt_spliceAt {body : List Char} {n : Nat}
    (h : (chLines body).findIdx? (fun l => decide (l = refHeaderLine)) = some n) :
    n < spliceAt body := by
  unfold spliceAt hdrIdx findIdxInt
  simp only [h]
  rcases lastRefGo_cases ((chLines body).drop (Int.toNat ((n : Int) + 1)))
    (Int.toNat ((n : Int) + 1)) (n : Int) with hc | ⟨j, hj1, hj2, hj3⟩
  · rw [hc]; omega
  · rw [hj3]; omega

/-- **C7 counterexample** — `addReference` leaves the body unchanged for
`trade-manager#5` although the exact line `- trade-manager#5` is not
present: the presence test is a substring check and `- trade-manager#55`
contains the fresh reference as a substring. -/
theorem C7_counterexample :
    addReference c7body "trade-manager".data 5 = c7body ∧
    refLine "trade-manager".data 5 ∉ chLines c7body := by
  exact ⟨rfl, by decide⟩

/-- **C7** — Behaviour of `addReference(body, repo, issue)` (with the
reference line free of newlines, as any `repo#issue` rendering is): if the
body contains the section marker and the reference substring, the body is
returned unchanged; if the body lacks the section marker, the section and
the reference line are appended at the end; otherwise the result's lines
are exactly the body's lines with the reference line inserted at one
position, which lies strictly after the `## Related Issues` header line
whenever that exact header line exists. -/
theorem C7_addReference (body repo : List Char) (issue : Nat)
    (hnl : '\n' ∉ refLine repo issue) :
    (jsIncludes body refSectionStr = true →
      jsIncludes body (refLine repo issue) = true →
      addReference body repo issue = body) ∧
    (jsIncludes body refSectionStr = false →
      addReference body repo issue =
        body ++ '\n' :: '\n' :: refSectionStr ++ refLine repo issue ++ ['\n']) ∧
    (jsIncludes body refSectionStr = true →
      jsIncludes body (refLine repo issue) = false →
      ∃ k ≤ (chLines body).length,
        chLines (addReference body repo issue) =
          List.insertIdx k (refLine repo issue) (chLines body) ∧
        ∀ n : Nat,
          (chLines body).findIdx? (fun l => decide (l = refHeaderLine)) = some n →
            n < k) := by
  refine ⟨?_, ?_, ?_⟩
  · intro h1 h2
    simp [addReference, h1, h2]
  · intro h1
    simp [addReference, h1]
  · intro h1 h2
    refine ⟨spliceAt body, spliceAt_le body, ?_, fun n hn => hdr_lt_spliceAt hn⟩
    have hup : addReference body repo issue =
        joinNl (List.insertIdx (spliceAt body) (refLine repo issue) (chLines body)) := by
      simp [addReference, h1, h2]
    rw [hup]
    show chSplit '\n'
        (joinNl (List.insertIdx (spliceAt body) (refLine repo issue) (chLines body))) = _
    apply chSplit_joinNl
    · have hlen := List.length_insertIdx (a := refLine repo issue)
        (spliceAt body) (chLines body) (spliceAt_le body)
      intro hcon
      rw [hcon] at hlen
      simp at hlen
    · intro p hp
      rcases (List.mem_insertIdx (spliceAt_le body)).mp hp with rfl | hp'
      · exact hnl
      · exact chSplit_pieces '\n' body p hp'

theorem C7_witness :
    '\n' ∉ refLine "trade-manager".data 3 ∧
    ∃ k ≤ (chLines c7wbody).length,
      chLines (addReference c7wbody "trade-manager".data 3) =
        List.insertIdx k (refLine "trade-manager".data 3) (chLines c7wbody) ∧
      ∀ n : Nat,
        (chLines c7wbody).findIdx? (fun l => decide (l = refHeaderLine)) = some n →
          n < k :=
  ⟨by decide, (C7_addReference c7wbody "trade-manager".data 3 (by decide)).2.2
    (by decide) (by decide)⟩

theorem refOf_eq (kvs : YamlKVs) : refOf kvs = (ownRef kvs).filterMap refFilter := by
  unfold refOf ownRef
  cases h : kvLookup kvs "reference" with
  | none => rfl
  | some y =>
    cases y with
    | str s =>
      show (if s = "" then []
        else match matchRef s.data with
          | some p => if p.1 ∈ knownRepos then [p] else []
          | none => []) = List.filterMap refFilter [s]
      by_cases he : s = ""
      · subst he
        rfl
      · rw [if_neg he]
        cases hm : matchRef s.data with
        | none => simp [List.filterMap_cons, refFilter, hm]
        | some p =>
          by_cases hk : p.1 ∈ knownRepos
          · simp [List.filterMap_cons, refFilter, hm, hk]
          · simp [List.filterMap_cons, refFilter, hm, hk]
    | num n => rfl
    | bool b => rfl
    | null => rfl
    | arr xs => rfl
    | map kvs2 => rfl

mutual
theorem collectRefs_eq : ∀ y : Yaml,
    collectRefs y = (refStrings y).filterMap refFilter
  | .str s => rfl
  | .num n => rfl
  | .bool b => rfl
  | .null => rfl
  | .arr xs => by
      show collectList xs = (refStringsList xs).filterMap refFilter
      exact collectList_eq xs
  | .map kvs => by
      show refOf kvs ++ collectKVs kvs =
        (ownRef kvs ++ refStringsKVs kvs).filterMap refFilter
      rw [List.filterMap_append, refOf_eq, collectKVs_eq kvs]

theorem collectList_eq : ∀ xs : YamlList,
    collectList xs = (refStringsList xs).filterMap refFilter
  | .nil => rfl
  | .cons y rest => by
      show collectRefs y ++ collectList rest =
        (refStrings y ++ refStringsList rest).filterMap refFilter
      rw [List.filterMap_append, collectRefs_eq y, collectList_eq rest]

theorem collectKVs_eq : ∀ kvs : YamlKVs,
    collectKVs kvs = (refStringsKVs kvs).filterMap refFilter
  | .nil => rfl
  | .cons k v rest => by
      show collectRefs v ++ collectKVs rest =
        (refStrings v ++ refStringsKVs rest).filterMap refFilter
      rw [List.filterMap_append, collectRefs_eq v, collectKVs_eq rest]
end

/-- **C6** — `parseReferences` never throws (it is a total function of the
parse outcome): an unparseable or empty/falsy document yields `[]`, and a
parsed document yields exactly the `reference` fields matching
`name:digits` with a known repository name, rendered as the name paired
with the parsed integer; malformed or unknown-repository references are
silently dropped. -/
theorem C6_parse_references :
    parseReferences (.error ()) = [] ∧ parseReferences (.ok none) = [] ∧
    ∀ y : Yaml, parseReferences (.ok (some y)) =
      (refStrings y).filterMap (fun s =>
        match matchRef s.data with
        | some p => if p.1 ∈ knownRepos then some p else none
        | none => none) := by
  refine ⟨rfl, rfl, ?_⟩
  intro y
  show collectRefs y = _
  rw [collectRefs_eq y]
  rfl

end TradeManager
